import Mathlib

/-!
Verification of the BFAT bitstream reader (`bitread.py`).

The Python functions are shallowly embedded as Lean functions:

* the raw bitstream is a `List Nat` of byte values (each `< 256` where needed);
* a 32-bit word is a `List Nat` of 32 bits, least significant bit first,
  exactly as `parse_word` builds it;
* fallible code (Python exceptions and the `print`+`exit()` failure paths)
  is modelled with `Option`/`Except PErr`;
* the word stream consumed by `parse_config_packet` is modelled as the list
  of 32-bit words obtained by repeated calls to `parse_word` (whose
  byte-to-word behaviour is verified separately).
-/

/-- The failure conditions of `bitread.py`.  The Python code signals them with
exceptions (`TruncatedStreamError` corresponds to `ord` failing on `b''`,
`nameError`/`valueError`/`indexError` to the homonymous Python exceptions) or
with `print`+`exit()` (`unsupportedDevice`, `malformedPacket`,
`incompletePacket`). -/
inductive PErr where
  | truncated
  | unrecognizedFormat
  | syncNotFound
  | configPacketNotFound
  | unsupportedDevice
  | malformedPacket
  | incompletePacket
  | nameError
  | valueError
  | indexError
deriving DecidableEq, Repr

/-- `bits_to_int` from `bitread.py`: `int_value = int_value + bit*(2**i)`
accumulated over `enumerate(binary)`. -/
def bits_to_int (binary : List Nat) : Nat :=
  binary.enum.foldl (fun acc p => acc + p.2 * 2 ^ p.1) 0

/-- Recursive value of an LSB-first bit list; used to reason about
`bits_to_int`. -/
def bitsVal : List Nat → Nat
  | [] => 0
  | b :: bs => b + 2 * bitsVal bs

/-- The 8 bits of one byte, least significant first: the inner loop
`for i in range(8): word_bits.append((byte >> i) & 1)` of `parse_word`. -/
def byteBits (b : Nat) : List Nat :=
  (List.range 8).map fun i => (b >>> i) &&& 1

/-- `parse_word` from `bitread.py`: reads 4 bytes and returns the 32 bits of
the word, LSB first; the byte read last is the least significant.  `none`
models the exception raised when fewer than 4 bytes remain. -/
def parse_word : List Nat → Option (List Nat × List Nat)
  | b0 :: b1 :: b2 :: b3 :: rest =>
      some (byteBits b3 ++ byteBits b2 ++ byteBits b1 ++ byteBits b0, rest)
  | _ => none

/-- Decimal form of the sync word `0xAA995566` used by `find_config_packet`. -/
def SYNC_WORD : Nat := 2862175590

/-- The `while not sync_word_found` loop of `find_config_packet`, on the byte
stream: read one byte; if it equals `0xAA` (= 170), seek back one byte, parse
the whole 32-bit word starting there, and on a match return the remaining
stream; on a mismatch the loop continues at the byte after the parsed word.
`none` models the exception raised when `ord` is applied to an empty read.
The fuel argument only bounds the number of loop iterations; it is
instantiated large enough (each iteration consumes at least one byte) that it
never runs out. -/
def findSyncAux : Nat → List Nat → Option (List Nat)
  | 0, _ => none
  | fuel + 1, bs =>
    match bs with
    | [] => none
    | b :: rest =>
      if b = 170 then
        match parse_word (b :: rest) with
        | none => none
        | some (w, rest') =>
          if bits_to_int w = SYNC_WORD then some rest' else findSyncAux fuel rest'
      else findSyncAux fuel rest

/-- The sync-word search of `find_config_packet`, starting right after the
part-name field. -/
def findSync (bs : List Nat) : Option (List Nat) :=
  findSyncAux (bs.length + 1) bs

/-- The Type-1 header test of `find_config_packet`:
`word[-3:] == [1, 0, 0]`, i.e. on a 32-bit word the LSB-first bit list
`[bit 29, bit 30, bit 31]` equals `[1, 0, 0]`. -/
def isType1Hdr (w : List Nat) : Bool := w.drop 29 == [1, 0, 0]

/-- The Type-2 header test of `find_config_packet`:
`word[-3:] == [0, 1, 0]`. -/
def isType2Hdr (w : List Nat) : Bool := w.drop 29 == [0, 1, 0]

/-- `packet_1_length = sum(b<<i for i, b in enumerate(word[:11]))`. -/
def packet1Length (w : List Nat) : Nat := bits_to_int (w.take 11)

/-- `packet_1_addr = sum(b<<i for i, b in enumerate(word[13:27]))`. -/
def packet1Addr (w : List Nat) : Nat := bits_to_int ((w.drop 13).take 14)

/-- `packet_1_opcode = sum(b<<i for i, b in enumerate(word[27:29]))`. -/
def packet1Opcode (w : List Nat) : Nat := bits_to_int ((w.drop 27).take 2)

/-- `packet_2_length = sum(b<<i for i, b in enumerate(word[:27]))`. -/
def packet2Length (w : List Nat) : Nat := bits_to_int (w.take 27)

/-- The payload-discarding loop of `find_config_packet`:
`for i in range(packet_1_length): packet_1_data.append(parse_word(bitfile))`,
with the parsed words thrown away. -/
def dropWords : Nat → List Nat → Option (List Nat)
  | 0, bs => some bs
  | n + 1, bs =>
    match parse_word bs with
    | none => none
    | some (_, rest) => dropWords n rest

/-- The `while not in_config_data` loop of `find_config_packet`, on the byte
stream following the sync word.  `pending` is the `type_2_fdri_write` flag.
Each iteration parses one word; a Type-2 header while the flag is set returns
the 27-bit length; otherwise the flag is cleared, and a Type-1 header has its
declared payload words read and discarded and sets the flag exactly when
opcode == 2, address == 2 and length == 0.  `none` models the exception when
the stream is exhausted.  The fuel argument only bounds loop iterations and is
instantiated so that it never runs out. -/
def scanAux : Nat → List Nat → Bool → Option Nat
  | 0, _, _ => none
  | fuel + 1, bs, pending =>
    match parse_word bs with
    | none => none
    | some (w, rest) =>
      if isType2Hdr w && pending then some (packet2Length w)
      else if isType1Hdr w then
        match dropWords (packet1Length w) rest with
        | none => none
        | some rest2 =>
          scanAux fuel rest2
            (packet1Opcode w == 2 && packet1Addr w == 2 && packet1Length w == 0)
      else scanAux fuel rest false

/-- The packet-scanning phase of `find_config_packet`, entered with the
`type_2_fdri_write` flag given by `pending` (initially `false`). -/
def packetScan (bs : List Nat) (pending : Bool) : Option Nat :=
  scanAux (bs.length + 1) bs pending

/-- `read_bytes_ascii` from `bitread.py`: reads a 2-byte big-endian
(bit-reversed per byte) length, then that many bytes, returned as the list of
their `chr` characters.  `none` models `ord` failing on an empty read. -/
def read_bytes_ascii : List Nat → Option (List Char × List Nat)
  | b0 :: b1 :: rest =>
    let len := bits_to_int (byteBits b1 ++ byteBits b0)
    if len ≤ rest.length then
      some ((rest.take len).map Char.ofNat, rest.drop len)
    else none
  | _ => none

/-- `find_config_packet` from `bitread.py`: skip the first header field, check
the second field is `'a'`, skip the design-name field and one separator byte,
read the part-name field (dropping its trailing terminator byte and, when it
starts with `'7'`, prefixing `"xc"` and appending `"-1"`), then find the sync
word and scan the packets for the FDRI-write idiom.  Returns the part name and
the Type-2 configuration packet length. -/
def find_config_packet (bs : List Nat) : Option (String × Nat) :=
  match read_bytes_ascii bs with
  | none => none
  | some (_, bs1) =>
    match read_bytes_ascii bs1 with
    | none => none
    | some (a, bs2) =>
      if a ≠ ['a'] then none
      else
        match read_bytes_ascii bs2 with
        | none => none
        | some (_, bs3) =>
          match read_bytes_ascii (bs3.drop 1) with
          | none => none
          | some (pn, bs4) =>
            match pn.dropLast with
            | [] => none
            | c :: cs =>
              let part : List Char :=
                if c = '7' then 'x' :: 'c' :: (c :: cs) ++ ['-', '1']
                else c :: cs
              match findSync bs4 with
              | none => none
              | some bs5 =>
                match packetScan bs5 false with
                | none => none
                | some len => some (⟨part⟩, len)

/-- `FRAME_LENGTH = 101`: the number of words in a Series-7 frame. -/
def FRAME_LENGTH : Nat := 101

/-- The row-change skip `for i in range(FRAME_LENGTH*2): parse_word(bitfile)`
of `parse_config_packet`, on the word-level stream: drop `n` words, failing
if the stream is exhausted first. -/
def skipWords : Nat → List (List Nat) → Except PErr (List (List Nat))
  | 0, s => .ok s
  | _ + 1, [] => .error .truncated
  | n + 1, _ :: s => skipWords n s

/-- Python `str.rjust`: left-pad with `c` up to length `n`. -/
def pyRjust (n : Nat) (c : Char) (l : List Char) : List Char :=
  List.replicate (n - l.length) c ++ l

/-- The f-string `f'bit_{frame[0]}_{word_offset_str}_{bit_offset_str}'` with
`word_offset_str = str(word_offset).rjust(3, "0")` and
`bit_offset_str = str(bit_offset).rjust(2, "0")`. -/
def fmtBit (fhex : String) (wo bo : Nat) : String :=
  "bit_" ++ fhex ++ "_" ++ String.mk (pyRjust 3 '0' (toString wo).data)
    ++ "_" ++ String.mk (pyRjust 2 '0' (toString bo).data)

/-- The inner bit loop of `parse_config_packet`: for each
`(bit_offset, bit) in enumerate(word)` emit the formatted entry when the bit
is 1 and it is not in the reserved clock-row range
(`word_offset == 50 and bit_offset <= 12`). -/
def emitWord (fhex : String) (wo : Nat) (w : List Nat) : List String :=
  w.enum.filterMap fun p =>
    if p.2 = 1 ∧ ¬(wo = 50 ∧ p.1 ≤ 12) then some (fmtBit fhex wo p.1) else none

/-- The word loop of `parse_config_packet`:
`for word_offset in range(FRAME_LENGTH)`, decrementing `frames_remaining`,
reading one word and emitting its high bits.  `wo` is the current word offset
and `k` the number of word offsets still to process. -/
def frameLoop (fhex : String) : Nat → Nat → List (List Nat) → Int →
    Except PErr (List String × List (List Nat) × Int)
  | _, 0, s, rem => .ok ([], s, rem)
  | wo, k + 1, s, rem =>
    match s with
    | [] => .error .truncated
    | w :: s' =>
      match frameLoop fhex (wo + 1) k s' (rem - 1) with
      | .error e => .error e
      | .ok (bs, s'', rem') => .ok (emitWord fhex wo w ++ bs, s'', rem')

/-- The slice `frame[1][17:23]` compared for the row-change test. -/
def rowHalfBits (fbits : List Nat) : List Nat := (fbits.drop 17).take 6

/-- The row-boundary check of `parse_config_packet`: when
`prev_frame[1][17:23] != frame[1][17:23]`, decrement `frames_remaining` by
`2*FRAME_LENGTH` and read and discard that many words; otherwise do
nothing. -/
def rowSkip (prevBits fBits : List Nat) (s : List (List Nat)) (rem : Int) :
    Except PErr (List (List Nat) × Int) :=
  if rowHalfBits prevBits ≠ rowHalfBits fBits then
    match skipWords (FRAME_LENGTH * 2) s with
    | .error e => .error e
    | .ok s' => .ok (s', rem - (FRAME_LENGTH * 2 : Int))
  else .ok (s, rem)

/-- The frame loop of `parse_config_packet`: for each frame, apply the
row-boundary skip against the previous frame, then read the frame's
`FRAME_LENGTH` words, and continue with `prev_frame = frame`. -/
def goFrames : List (String × List Nat) → (String × List Nat) →
    List (List Nat) → Int → Except PErr (List String × List (List Nat) × Int)
  | [], _, s, rem => .ok ([], s, rem)
  | f :: fs, prev, s, rem =>
    match rowSkip prev.2 f.2 s rem with
    | .error e => .error e
    | .ok (s1, rem1) =>
      match frameLoop f.1 0 FRAME_LENGTH s1 rem1 with
      | .error e => .error e
      | .ok (bs, s2, rem2) =>
        match goFrames fs f s2 rem2 with
        | .error e => .error e
        | .ok (bs', s3, rem3) => .ok (bs ++ bs', s3, rem3)

/-- `parse_config_packet` from `bitread.py`, on the word-level stream: check
the packet length is a multiple of `FRAME_LENGTH` (else the
"must be multiple of frame length" fatal error), start with
`prev_frame = frames[0]` (an empty frame list is the `IndexError` of
`frames[0]`), walk every frame, and finally require
`frames_remaining == 2*FRAME_LENGTH` (else the "not fully parsed" fatal
error).  Returns the emitted bits and the unread remainder of the stream
(the final stream cursor). -/
def parse_config_packet (stream : List (List Nat)) (config_packet_length : Nat)
    (frames : List (String × List Nat)) :
    Except PErr (List String × List (List Nat)) :=
  if config_packet_length % FRAME_LENGTH ≠ 0 then .error .malformedPacket
  else
    match frames with
    | [] => .error .indexError
    | f0 :: _ =>
      match goFrames frames f0 stream (config_packet_length : Int) with
      | .error e => .error e
      | .ok (bits, s', rem) =>
        if rem ≠ 2 * (FRAME_LENGTH : Int) then .error .incompletePacket
        else .ok (bits, s')

/-- Reference form of the inner bit loop: the set bits of a 32-bit word, in
increasing bit offset 0..31, excluding offsets 0..12 of word offset 50. -/
def refWordBits (fhex : String) (wo : Nat) (w : List Nat) : List String :=
  (List.range 32).filterMap fun bo =>
    if w.getD bo 0 = 1 ∧ ¬(wo = 50 ∧ bo ≤ 12) then some (fmtBit fhex wo bo)
    else none

/-- Reference form of one frame's output: word offsets 0..100 in order, each
contributing its `refWordBits`. -/
def refFrameBits (fhex : String) (ws : List (List Nat)) : List String :=
  (List.range FRAME_LENGTH).flatMap fun wo => refWordBits fhex wo (ws.getD wo [])

/-- Reference layout of the words the decoder reads for each frame: walking
the frame list with the row-boundary rule, a frame whose bits 17..22 differ
from the previous frame's first discards `2*FRAME_LENGTH` words of the
stream, and every frame is then assigned the next `FRAME_LENGTH` words at
the cursor; the discarded words belong to no slice. -/
def refSlices : List (String × List Nat) → (String × List Nat) →
    List (List Nat) → List (String × List (List Nat))
  | [], _, _ => []
  | f :: fs, prev, s =>
    if rowHalfBits prev.2 ≠ rowHalfBits f.2 then
      (f.1, (s.drop (FRAME_LENGTH * 2)).take FRAME_LENGTH) ::
        refSlices fs f ((s.drop (FRAME_LENGTH * 2)).drop FRAME_LENGTH)
    else
      (f.1, s.take FRAME_LENGTH) :: refSlices fs f (s.drop FRAME_LENGTH)

/-- Python whitespace test used by `str.strip()`. -/
def pySpaceChar (c : Char) : Bool :=
  c == ' ' || c == '\t' || c == '\n' || c == '\r' ||
    c == Char.ofNat 11 || c == Char.ofNat 12

/-- Python `str.strip()`: remove leading and trailing whitespace. -/
def pyStrip (l : List Char) : List Char :=
  ((l.dropWhile pySpaceChar).reverse.dropWhile pySpaceChar).reverse

/-- Python `str.split(sep)` with a one-character separator: split on every
occurrence, keeping empty pieces. -/
def splitOnChar (c : Char) : List Char → List (List Char)
  | [] => [[]]
  | a :: rest =>
    if a = c then [] :: splitOnChar c rest
    else
      match splitOnChar c rest with
      | [] => [[a]]
      | p :: ps => (a :: p) :: ps

/-- The slice `[1::2]`: elements at odd indices. -/
def oddElems {α : Type} : List α → List α
  | _ :: b :: rest => b :: oddElems rest
  | _ => []

def startsWithSeq : List Char → List Char → Bool
  | [], _ => true
  | _ :: _, [] => false
  | p :: ps, a :: as => p == a && startsWithSeq ps as

/-- Python's substring test `pat in s`. -/
def containsSeq (pat : List Char) : List Char → Bool
  | [] => startsWithSeq pat []
  | a :: as => startsWithSeq pat (a :: as) || containsSeq pat as

def lineContains (line pat : String) : Bool := containsSeq pat.data line.data

def digitsVal (ds : List Char) : Nat :=
  ds.foldl (fun a c => a * 10 + (c.toNat - 48)) 0

/-- CPython `int(str)` on plain decimal literals: optional surrounding
whitespace, an optional sign, then decimal digits; anything else raises
`ValueError` (underscore separators and non-ASCII digits are not needed by
any claim and are treated as errors). -/
def pyInt (l : List Char) : Option Int :=
  match pyStrip l with
  | '-' :: ds =>
    if ds ≠ [] ∧ ds.all Char.isDigit then some (-(digitsVal ds : Int)) else none
  | '+' :: ds =>
    if ds ≠ [] ∧ ds.all Char.isDigit then some ((digitsVal ds : Int)) else none
  | ds =>
    if ds ≠ [] ∧ ds.all Char.isDigit then some ((digitsVal ds : Int)) else none

/-- Python `(v >> i) & 1` on a (possibly negative) int: arithmetic shift is
floor division, `& 1` is the nonnegative remainder mod 2. -/
def bitOfInt (v : Int) (i : Nat) : Nat :=
  ((Int.fdiv v ((2 : Int) ^ i)).emod 2).toNat

/-- `for i, index in enumerate(range(start, start+width)): addr[index] = (v >> i) & 1`. -/
def setBitsLE (addr : List Nat) (start width : Nat) (v : Int) : List Nat :=
  (List.range width).foldl (fun a i => a.set (start + i) (bitOfInt v i)) addr

/-- Lowercase hexadecimal digit characters as produced by Python `hex()`. -/
def hexChar (d : Nat) : Char :=
  if d < 10 then Char.ofNat (48 + d) else Char.ofNat (87 + d)

def toHexAux : Nat → Nat → List Char → List Char
  | 0, _, acc => acc
  | fuel + 1, n, acc =>
    if n < 16 then hexChar n :: acc
    else toHexAux fuel (n / 16) (hexChar (n % 16) :: acc)

/-- The digit part of Python `hex(n)` for `n ≥ 0` (no leading zeros; `"0"`
for zero).  The fuel argument only bounds the digit count and never runs
out. -/
def pyHexDigits (n : Nat) : List Char := toHexAux (n + 1) n []

/-- Python `str.lstrip("0x")`: remove leading characters belonging to the
set consisting of `'0'` and `'x'`. -/
def pyLstrip0x (l : List Char) : List Char :=
  l.dropWhile fun c => c == '0' || c == 'x'

/-- `hex(v).lstrip("0x").rjust(8, "0")` from `get_frame_list`. -/
def pyHexPad8 (v : Nat) : String :=
  ⟨pyRjust 8 '0' (pyLstrip0x ('0' :: 'x' :: pyHexDigits v))⟩

/-- The `HALF_SCOPE` section of the `get_frame_list` line loop: set bit 22
from the top/bottom marker. -/
def halfStep (scope : Int) (line : String) (a : List Nat) : List Nat :=
  if scope = 2 then
    let a1 := if lineContains line "top" then a.set 22 0 else a
    if lineContains line "bottom" then a1.set 22 1 else a1
  else a

/-- `line.split('"')[1::2]`. -/
def quotedFields (line : String) : List (List Char) :=
  oddElems (splitOnChar '"' line.data)

/-- The `ROW_SCOPE` section: set bits 17..21 from the decimal row number. -/
def rowStep (scope : Int) (line : String) (a : List Nat) :
    Except PErr (List Nat) :=
  if scope = 4 then
    match quotedFields line with
    | [] => .ok a
    | r :: _ =>
      match pyInt r with
      | none => .error .valueError
      | some v => .ok (setBitsLE a 17 5 v)
  else .ok a

/-- The `BUS_SCOPE` section: the slice assignments
`curr_addr[23:26] = reversed([...])` keyed by the block-type name. -/
def busStep (scope : Int) (line : String) (a : List Nat) : List Nat :=
  if scope = 6 then
    let a1 := if lineContains line "CLB_IO_CLK" then
        ((a.set 23 0).set 24 0).set 25 0 else a
    let a2 := if lineContains line "BLOCK_RAM" then
        ((a1.set 23 1).set 24 0).set 25 0 else a1
    if lineContains line "CFG_CLB" then ((a2.set 23 0).set 24 1).set 25 0 else a2
  else a

/-- The `COL_SCOPE` section: set bits 7..16 from the decimal column number. -/
def colStep (scope : Int) (line : String) (a : List Nat) :
    Except PErr (List Nat) :=
  if scope = 8 then
    match quotedFields line with
    | [] => .ok a
    | cnum :: _ =>
      match pyInt cnum with
      | none => .error .valueError
      | some v => .ok (setBitsLE a 7 10 v)
  else .ok a

/-- The frame-emission loop `for minor_addr in range(num_frames)`: set bits
0..6 to the minor index and append the hexadecimal and binary forms of the
address (`curr_addr` is mutated in place, so later frames start from the
updated address). -/
def emitFrames (a : List Nat) (n : Int) : List (String × List Nat) × List Nat :=
  (List.range n.toNat).foldl
    (fun (st : List (String × List Nat) × List Nat) (minor : Nat) =>
      let a' := setBitsLE st.2 0 7 (minor : Int)
      (st.1 ++ [(pyHexPad8 (bits_to_int a'), a')], a'))
    ([], a)

/-- The `FRAME_COUNT_SCOPE` section: when the line has no closing brace,
parse `int(line.strip().split(" ")[1])` (a missing element is the
`IndexError`, a malformed number the `ValueError`) and emit that many
frames. -/
def fcStep (scope : Int) (line : String) (a : List Nat) :
    Except PErr (List (String × List Nat) × List Nat) :=
  if scope = 9 ∧ lineContains line "\x7d" = false then
    match (splitOnChar ' ' (pyStrip line.data)).get? 1 with
    | none => .error .indexError
    | some seg =>
      match pyInt seg with
      | none => .error .valueError
      | some n => .ok (emitFrames a n)
  else .ok ([], a)

/-- Scope tracking: `+1` for a line containing `"{"`, `-1` for one containing
`"}"`, applied after the section handlers. -/
def braceStep (scope : Int) (line : String) : Int :=
  (scope + (if lineContains line "\x7b" then 1 else 0))
    - (if lineContains line "\x7d" then 1 else 0)

/-- The running state of the `get_frame_list` line loop. -/
structure GFLState where
  scope : Int
  addr : List Nat
  frames : List (String × List Nat)

/-- One line of the `get_frame_list` loop: the five scope-keyed sections in
source order, then the brace-counting scope update. -/
def gflLine (st : GFLState) (line : String) : Except PErr GFLState :=
  let a0 := halfStep st.scope line st.addr
  match rowStep st.scope line a0 with
  | .error e => .error e
  | .ok a1 =>
    let a2 := busStep st.scope line a1
    match colStep st.scope line a2 with
    | .error e => .error e
    | .ok a3 =>
      match fcStep st.scope line a3 with
      | .error e => .error e
      | .ok (fr, a4) =>
        .ok ⟨braceStep st.scope line, a4, st.frames ++ fr⟩

def gflLines : List String → GFLState → Except PErr GFLState
  | [], st => .ok st
  | line :: rest, st =>
    match gflLine st line with
    | .error e => .error e
    | .ok st' => gflLines rest st'

/-- The family dispatch of `get_frame_list`: four independent `if`s, each
overwriting `family`; `none` models the unbound variable (a Python
`NameError` at the `open` call) when no family substring matches. -/
def familyOf (part : String) : Option String :=
  let f0 : Option String := none
  let f1 := if containsSeq "xc7a".data part.data then some "artix7" else f0
  let f2 := if containsSeq "xc7k".data part.data then some "kintex7" else f1
  let f3 := if containsSeq "xc7s".data part.data then some "spartan7" else f2
  if containsSeq "xc7z".data part.data then some "zynq7" else f3

/-- Python list comparison `<` on `List Nat` (lexicographic, shorter prefix
first). -/
def pyListLt : List Nat → List Nat → Bool
  | [], [] => false
  | [], _ :: _ => true
  | _ :: _, [] => false
  | a :: as, b :: bs => if a < b then true else if b < a then false else pyListLt as bs

/-- Python comparison of two `[hex, bits]` frame entries: the hexadecimal
strings first, the bit lists as tie-break. -/
def framePairLt (p q : String × List Nat) : Bool :=
  if p.1 = q.1 then pyListLt p.2 q.2 else decide (p.1 < q.1)

/-- The (non-strict) order `sorted` arranges frame entries by:
`p` may come before `q` iff `q` is not strictly below `p`. -/
def frameLe (p q : String × List Nat) : Prop := framePairLt q p = false

instance : DecidableRel frameLe :=
  fun _ _ => inferInstanceAs (Decidable (_ = false))

/-- `get_frame_list` from `bitread.py`, with the descriptor file's lines as
input (the file itself lives outside this repository): resolve the device
family from the part name, fold the line loop over the descriptor, and
return `sorted(frames)`.  Python's `sorted` is a stable sort by `<`,
modelled by insertion sort over `frameLe`. -/
def get_frame_list (part : String) (lines : List String) :
    Except PErr (List (String × List Nat)) :=
  match familyOf part with
  | none => .error .nameError
  | some _ =>
    match gflLines lines ⟨0, List.replicate 32 0, []⟩ with
    | .error e => .error e
    | .ok st => .ok (List.insertionSort frameLe st.frames)

/-- The frame-list construction as invoked from `get_high_bits`: the caller
runs `get_frame_list` only when `"xc7" in part` and otherwise fails with the
"Only Series-7 parts are supported" error. -/
def frameListForPart (part : String) (lines : List String) :
    Except PErr (List (String × List Nat)) :=
  if containsSeq "xc7".data part.data then get_frame_list part lines
  else .error .unsupportedDevice

instance exceptDecEq {ε α : Type} [DecidableEq ε] [DecidableEq α] :
    DecidableEq (Except ε α) := fun x y =>
  match x, y with
  | .error e, .error e' =>
    if h : e = e' then isTrue (by rw [h]) else isFalse fun hc => h (Except.error.inj hc)
  | .error _, .ok _ => isFalse fun hc => by cases hc
  | .ok _, .error _ => isFalse fun hc => by cases hc
  | .ok a, .ok a' =>
    if h : a = a' then isTrue (by rw [h]) else isFalse fun hc => h (Except.ok.inj hc)

/-- Well-formedness of an address accumulator: 32 entries, each 0 or 1. -/
def wfAddr (a : List Nat) : Prop := a.length = 32 ∧ ∀ b ∈ a, b ≤ 1

/-- Well-formedness of an emitted frame entry: the hexadecimal component is
the 8-digit padded hex form of the bit list's value, and the bit list is a
well-formed address. -/
def wfFrame (f : String × List Nat) : Prop :=
  f.1 = pyHexPad8 (bits_to_int f.2) ∧ wfAddr f.2

/-- Invariant of the `get_frame_list` line loop. -/
def gflInv (st : GFLState) : Prop :=
  wfAddr st.addr ∧ ∀ f ∈ st.frames, wfFrame f

/-- Fixed-width big-endian hexadecimal digits of a value. -/
def hexBE : Nat → Nat → List Char
  | 0, _ => []
  | k + 1, n => hexChar (n / 16 ^ k) :: hexBE k (n % 16 ^ k)

theorem enumFrom_foldl_bitsVal (l : List Nat) :
    ∀ n acc : Nat,
      (l.enumFrom n).foldl (fun acc p => acc + p.2 * 2 ^ p.1) acc
        = acc + 2 ^ n * bitsVal l := by
  induction l with
  | nil => intro n acc; simp [bitsVal]
  | cons b bs ih =>
    intro n acc
    simp only [List.enumFrom_cons, List.foldl_cons, bitsVal, ih (n + 1)]
    ring

theorem bits_to_int_eq_bitsVal (l : List Nat) : bits_to_int l = bitsVal l := by
  have h := enumFrom_foldl_bitsVal l 0 0
  simpa [bits_to_int, List.enum] using h

theorem bitsVal_append (xs ys : List Nat) :
    bitsVal (xs ++ ys) = bitsVal xs + 2 ^ xs.length * bitsVal ys := by
  induction xs with
  | nil => simp [bitsVal]
  | cons b bs ih => simp [bitsVal, ih, List.length_cons]; ring

theorem byteBits_eq (b : Nat) :
    byteBits b = [(b >>> 0) &&& 1, (b >>> 1) &&& 1, (b >>> 2) &&& 1,
      (b >>> 3) &&& 1, (b >>> 4) &&& 1, (b >>> 5) &&& 1, (b >>> 6) &&& 1,
      (b >>> 7) &&& 1] := rfl

theorem length_byteBits (b : Nat) : (byteBits b).length = 8 := rfl

theorem byteBits_getD (b i : Nat) (h : i < 8) :
    (byteBits b).getD i 0 = (b >>> i) &&& 1 := by
  rw [byteBits, List.getD_eq_getElem?_getD, List.getElem?_map,
    List.getElem?_range h]
  rfl

theorem bit_eq_div_mod (b i : Nat) : (b >>> i) &&& 1 = b / 2 ^ i % 2 := by
  rw [Nat.shiftRight_eq_div_pow, Nat.and_one_is_mod]

theorem bitsVal_range_map (b : Nat) :
    ∀ w : Nat,
      bitsVal ((List.range w).map fun i => (b >>> i) &&& 1) = b % 2 ^ w := by
  intro w
  induction w with
  | zero => simp [bitsVal, Nat.mod_one]
  | succ w ih =>
    rw [List.range_succ, List.map_append, bitsVal_append, ih]
    simp only [List.map_cons, List.map_nil, bitsVal, List.length_map,
      List.length_range]
    rw [bit_eq_div_mod, pow_succ, Nat.mod_mul]
    ring

theorem bitsVal_byteBits (b : Nat) (h : b < 256) : bitsVal (byteBits b) = b := by
  have := bitsVal_range_map b 8
  rw [byteBits, this, Nat.mod_eq_of_lt (by norm_num [h] : b < 2 ^ 8)]

theorem getD_append_lt {l₁ l₂ : List Nat} {n : Nat} (h : n < l₁.length) :
    (l₁ ++ l₂).getD n 0 = l₁.getD n 0 := by
  simp [List.getD_eq_getElem?_getD, List.getElem?_append_left h]

theorem getD_append_ge {l₁ l₂ : List Nat} {n : Nat} (h : l₁.length ≤ n) :
    (l₁ ++ l₂).getD n 0 = l₂.getD (n - l₁.length) 0 := by
  simp [List.getD_eq_getElem?_getD, List.getElem?_append_right h]

theorem word_getD (b0 b1 b2 b3 : Nat) :
    ∀ k, k < 32 →
      (byteBits b3 ++ byteBits b2 ++ byteBits b1 ++ byteBits b0).getD k 0
        = (([b0, b1, b2, b3].getD (3 - k / 8) 0) >>> (k % 8)) &&& 1 := by
  intro k hk
  rw [List.append_assoc, List.append_assoc]
  rcases Nat.lt_or_ge k 8 with h8 | h8
  · rw [getD_append_lt (by simpa [length_byteBits] using h8),
      byteBits_getD _ _ h8, Nat.div_eq_of_lt h8, Nat.mod_eq_of_lt h8]
    rfl
  · rw [getD_append_ge (by simpa [length_byteBits] using h8), length_byteBits]
    rcases Nat.lt_or_ge k 16 with h16 | h16
    · rw [getD_append_lt (by simp [length_byteBits]; omega),
        byteBits_getD _ _ (by omega)]
      have hd : k / 8 = 1 := by omega
      have hm : k % 8 = k - 8 := by omega
      rw [hd, hm]
      rfl
    · rw [getD_append_ge (by simp [length_byteBits]; omega), length_byteBits]
      rcases Nat.lt_or_ge k 24 with h24 | h24
      · rw [getD_append_lt (by simp [length_byteBits]; omega),
          byteBits_getD _ _ (by omega)]
        have hd : k / 8 = 2 := by omega
        have hm : k % 8 = k - 8 - 8 := by omega
        rw [hd, hm]
        rfl
      · rw [getD_append_ge (by simp [length_byteBits]; omega), length_byteBits,
          byteBits_getD _ _ (by omega)]
        have hd : k / 8 = 3 := by omega
        have hm : k % 8 = k - 8 - 8 - 8 := by omega
        rw [hd, hm]
        rfl

theorem parse_word_length {bs w rest} (h : parse_word bs = some (w, rest)) :
    w.length = 32 := by
  match bs, h with
  | b0 :: b1 :: b2 :: b3 :: tl, h =>
    simp only [parse_word, Option.some.injEq, Prod.mk.injEq] at h
    rw [← h.1]
    simp [length_byteBits]

theorem parse_word_rest {bs w rest} (h : parse_word bs = some (w, rest)) :
    rest = bs.drop 4 ∧ 4 ≤ bs.length := by
  match bs, h with
  | b0 :: b1 :: b2 :: b3 :: tl, h =>
    simp only [parse_word, Option.some.injEq, Prod.mk.injEq] at h
    rw [← h.2]
    simp

/-- C4: for raw bytes B0..B3 read in this order, bit `k` of the parsed word is
bit `k % 8` of byte `B (3 - k / 8)`, and `bits_to_int` of the word is
`B0*2^24 + B1*2^16 + B2*2^8 + B3`. -/
theorem parse_word_bit_layout (b0 b1 b2 b3 : Nat) (rest w tl : List Nat)
    (h : parse_word (b0 :: b1 :: b2 :: b3 :: rest) = some (w, tl))
    (h0 : b0 < 256) (h1 : b1 < 256) (h2 : b2 < 256) (h3 : b3 < 256) :
    tl = rest ∧ w.length = 32 ∧
      (∀ k, k < 32 →
        w.getD k 0 = (([b0, b1, b2, b3].getD (3 - k / 8) 0) >>> (k % 8)) &&& 1) ∧
      bits_to_int w = b0 * 2 ^ 24 + b1 * 2 ^ 16 + b2 * 2 ^ 8 + b3 := by
  simp only [parse_word, Option.some.injEq, Prod.mk.injEq] at h
  obtain ⟨hw, htl⟩ := h
  subst hw
  refine ⟨htl.symm, by simp [length_byteBits], ?_, ?_⟩
  · exact word_getD b0 b1 b2 b3
  · rw [bits_to_int_eq_bitsVal, bitsVal_append, bitsVal_append, bitsVal_append,
      bitsVal_byteBits _ h3, bitsVal_byteBits _ h2, bitsVal_byteBits _ h1,
      bitsVal_byteBits _ h0]
    simp only [List.length_append, length_byteBits]
    norm_num
    ring

theorem parse_word_bit_layout_witness :
    ∃ w : List Nat, parse_word [1, 2, 3, 4] = some (w, []) ∧
      bits_to_int w = 16909060 := by
  refine ⟨_, rfl, ?_⟩
  have h := parse_word_bit_layout 1 2 3 4 [] _ _ rfl
    (by norm_num) (by norm_num) (by norm_num) (by norm_num)
  rw [h.2.2.2]
  norm_num

theorem findSyncAux_step (fuel b : Nat) (rest : List Nat) :
    findSyncAux (fuel + 1) (b :: rest) =
      if b = 170 then
        match parse_word (b :: rest) with
        | none => none
        | some (w, rest') =>
          if bits_to_int w = SYNC_WORD then some rest'
          else findSyncAux fuel rest'
      else findSyncAux fuel rest := rfl

theorem findSyncAux_fuel :
    ∀ f₁ f₂ bs, bs.length < f₁ → bs.length < f₂ →
      findSyncAux f₁ bs = findSyncAux f₂ bs := by
  intro f₁
  induction f₁ with
  | zero => intro f₂ bs h1 _; omega
  | succ n ih =>
    intro f₂ bs h1 h2
    match f₂, h2 with
    | m + 1, h2 =>
      match bs with
      | [] => rfl
      | b :: rest =>
        have hlen : rest.length + 1 < n + 1 := by simpa using h1
        have hlen2 : rest.length + 1 < m + 1 := by simpa using h2
        rw [findSyncAux_step n, findSyncAux_step m]
        by_cases hb : b = 170
        · simp only [hb, if_true]
          cases hpw : parse_word (170 :: rest) with
          | none => rfl
          | some p =>
            obtain ⟨w, rest'⟩ := p
            obtain ⟨hdrop, hle⟩ := parse_word_rest hpw
            have hr : rest'.length + 3 = rest.length := by
              rw [hdrop]
              simp at hle ⊢
              omega
            by_cases hs : bits_to_int w = SYNC_WORD
            · simp [hs]
            · simp only [hs, if_false]
              exact ih m rest' (by omega) (by omega)
        · simp only [hb, if_false]
          exact ih m rest (by omega) (by omega)

/-- C3 (amended): during the sync search a byte other than `0xAA` advances the
scan by one byte; but when a byte equal to `0xAA` is found and the 32-bit word
starting there does not match `0xAA995566`, scanning resumes at the byte right
after the 4-byte word just checked — the three bytes following the `0xAA`
candidate byte are skipped, so not every byte position of the stream is
examined.  A matching word ends the search. -/
theorem findSync_step :
    (∀ b bs, b ≠ 170 → findSync (b :: bs) = findSync bs) ∧
    (∀ bs w rest, parse_word (170 :: bs) = some (w, rest) →
      bits_to_int w ≠ SYNC_WORD →
      findSync (170 :: bs) = findSync rest ∧ rest = bs.drop 3) ∧
    (∀ bs w rest, parse_word (170 :: bs) = some (w, rest) →
      bits_to_int w = SYNC_WORD → findSync (170 :: bs) = some rest) := by
  refine ⟨?_, ?_, ?_⟩
  · intro b bs hb
    show findSyncAux ((b :: bs).length + 1) (b :: bs) = findSync bs
    rw [List.length_cons, findSyncAux_step]
    simp only [hb, if_false]
    exact findSyncAux_fuel _ _ _ (by omega) (by omega)
  · intro bs w rest hpw hs
    obtain ⟨hdrop, hle⟩ := parse_word_rest hpw
    have hrest : rest = bs.drop 3 := by rw [hdrop]; rfl
    have hr : rest.length + 3 = bs.length := by
      rw [hrest]
      simp at hle ⊢
      omega
    refine ⟨?_, hrest⟩
    show findSyncAux ((170 :: bs).length + 1) (170 :: bs) = findSync rest
    rw [List.length_cons, findSyncAux_step, if_pos rfl, hpw]
    simp only [hs, if_false]
    exact findSyncAux_fuel _ _ _ (by omega) (by omega)
  · intro bs w rest hpw hs
    show findSyncAux ((170 :: bs).length + 1) (170 :: bs) = some rest
    rw [List.length_cons, findSyncAux_step, if_pos rfl, hpw]
    simp only [hs, if_true]

/-- C3 counterexample: the stream `AA AA 99 55 66` contains the sync word
`0xAA995566` starting at byte position 1, immediately after the first `0xAA`
candidate byte, but the scanner misses it and exhausts the stream, because
after the failed candidate at position 0 it resumes at position 4 rather than
position 1. -/
theorem findSync_counterexample :
    (∃ w, parse_word [170, 153, 85, 102] = some (w, []) ∧
      bits_to_int w = SYNC_WORD) ∧
    findSync [170, 170, 153, 85, 102] = none := by
  exact ⟨⟨_, rfl, by decide⟩, by decide⟩

theorem findSync_step_witness :
    findSync [0, 170, 153, 85, 102] = findSync [170, 153, 85, 102] ∧
    findSync [170, 170, 153, 85, 102] = findSync [102] ∧
    findSync [170, 153, 85, 102] = some [] := by
  refine ⟨findSync_step.1 0 _ (by decide), ?_, findSync_step.2.2 _ _ _ rfl (by decide)⟩
  exact (findSync_step.2.1 [170, 153, 85, 102] _ _ rfl (by decide)).1

theorem dropWords_eq :
    ∀ n bs rest, dropWords n bs = some rest →
      rest = bs.drop (4 * n) ∧ 4 * n ≤ bs.length := by
  intro n
  induction n with
  | zero => intro bs rest h; simp [dropWords] at h; simp [h.symm]
  | succ n ih =>
    intro bs rest h
    simp only [dropWords] at h
    cases hpw : parse_word bs with
    | none => rw [hpw] at h; exact absurd h (by simp)
    | some p =>
      rw [hpw] at h
      obtain ⟨w, mid⟩ := p
      obtain ⟨hmid, hle⟩ := parse_word_rest hpw
      obtain ⟨hrest, hlen⟩ := ih mid rest h
      subst hmid
      constructor
      · rw [hrest, List.drop_drop]
        congr 1
        ring
      · simp at hlen
        omega

theorem scanAux_step (fuel : Nat) (bs : List Nat) (pending : Bool) :
    scanAux (fuel + 1) bs pending =
      match parse_word bs with
      | none => none
      | some (w, rest) =>
        if isType2Hdr w && pending then some (packet2Length w)
        else if isType1Hdr w then
          match dropWords (packet1Length w) rest with
          | none => none
          | some rest2 =>
            scanAux fuel rest2
              (packet1Opcode w == 2 && packet1Addr w == 2 && packet1Length w == 0)
        else scanAux fuel rest false := rfl

theorem scanAux_fuel :
    ∀ f₁ f₂ bs pending, bs.length < f₁ → bs.length < f₂ →
      scanAux f₁ bs pending = scanAux f₂ bs pending := by
  intro f₁
  induction f₁ with
  | zero => intro f₂ bs pending h1 _; omega
  | succ n ih =>
    intro f₂ bs pending h1 h2
    match f₂, h2 with
    | m + 1, h2 =>
      rw [scanAux_step n, scanAux_step m]
      cases hpw : parse_word bs with
      | none => rfl
      | some p =>
        obtain ⟨w, rest⟩ := p
        obtain ⟨hdrop, hle⟩ := parse_word_rest hpw
        have hr : rest.length + 4 = bs.length := by
          rw [hdrop, List.length_drop]
          omega
        by_cases ht2 : (isType2Hdr w && pending) = true
        · simp only [ht2, if_true]
        · simp only [ht2, if_false]
          by_cases ht1 : isType1Hdr w = true
          · simp only [ht1, if_true]
            cases hdw : dropWords (packet1Length w) rest with
            | none => rfl
            | some rest2 =>
              obtain ⟨hr2, hle2⟩ := dropWords_eq _ _ _ hdw
              have : rest2.length ≤ rest.length := by
                rw [hr2]
                simp
              exact ih m rest2 _ (by omega) (by omega)
          · simp only [ht1, if_false]
            exact ih m rest false (by omega) (by omega)

/-- C1: the packet scan returns a payload length exactly by decoding the low
27 bits of a Type-2 header word read while the FDRI-write flag is set; a
Type-1 header has its declared payload words (4 bytes each) consumed and
discarded and leaves the flag set afterwards iff opcode == 2 (write),
address == 2 (FDRI) and length == 0; any other word clears the flag.  Hence a
Type-2 length is returned only when the Type-2 word immediately follows the
Type-1 FDRI-write idiom. -/
theorem packetScan_fdri (bs rest w : List Nat) (pending : Bool)
    (hpw : parse_word bs = some (w, rest)) :
    (isType2Hdr w = true → pending = true →
      packetScan bs pending = some (packet2Length w)) ∧
    (isType1Hdr w = true →
      ∀ rest2, dropWords (packet1Length w) rest = some rest2 →
        packetScan bs pending =
          packetScan rest2
            (packet1Opcode w == 2 && packet1Addr w == 2 && packet1Length w == 0) ∧
        rest2 = rest.drop (4 * packet1Length w)) ∧
    (isType1Hdr w = false → (isType2Hdr w = false ∨ pending = false) →
      packetScan bs pending = packetScan rest false) := by
  obtain ⟨hdrop, hle⟩ := parse_word_rest hpw
  have hr : rest.length + 4 = bs.length := by
    rw [hdrop, List.length_drop]
    omega
  refine ⟨?_, ?_, ?_⟩
  · intro h2 hp
    show scanAux (bs.length + 1) bs pending = _
    rw [scanAux_step, hpw]
    simp [h2, hp]
  · intro h1 rest2 hdw
    obtain ⟨hr2, hle2⟩ := dropWords_eq _ _ _ hdw
    have hn2 : isType2Hdr w = false := by
      rcases h : isType2Hdr w with _ | _
      · rfl
      · exfalso
        have e1 : w.drop 29 = [1, 0, 0] := by
          have := h1
          rwa [isType1Hdr, beq_iff_eq] at this
        have e2 : w.drop 29 = [0, 1, 0] := by
          rwa [isType2Hdr, beq_iff_eq] at h
        rw [e1] at e2
        simp at e2
    refine ⟨?_, hr2⟩
    show scanAux (bs.length + 1) bs pending = _
    rw [scanAux_step, hpw]
    simp only [hn2, Bool.false_and, if_false, h1, if_true, hdw]
    apply scanAux_fuel
    · have : rest2.length ≤ rest.length := by rw [hr2]; simp
      omega
    · omega
  · intro h1 h2
    show scanAux (bs.length + 1) bs pending = _
    have hcond : (isType2Hdr w && pending) = false := by
      rcases h2 with h2 | h2 <;> simp [h2]
    rw [scanAux_step, hpw]
    simp only [hcond, if_false, h1]
    simp only [Bool.false_eq_true, if_false]
    exact scanAux_fuel _ _ _ _ (by omega) (by omega)

theorem packetScan_fdri_witness :
    packetScan [48, 0, 64, 0, 64, 0, 0, 7] false = packetScan [64, 0, 0, 7] true ∧
    packetScan [64, 0, 0, 7] true = some 7 := by
  constructor
  · have h := (packetScan_fdri [48, 0, 64, 0, 64, 0, 0, 7] [64, 0, 0, 7] _ false
      rfl).2.1 (by decide) [64, 0, 0, 7] (by decide)
    have he : (packet1Opcode (byteBits 0 ++ byteBits 64 ++ byteBits 0 ++ byteBits 48) == 2 &&
        packet1Addr (byteBits 0 ++ byteBits 64 ++ byteBits 0 ++ byteBits 48) == 2 &&
        packet1Length (byteBits 0 ++ byteBits 64 ++ byteBits 0 ++ byteBits 48) == 0) = true := by
      decide
    rw [h.1, he]
  · have h := (packetScan_fdri [64, 0, 0, 7] [] _ true rfl).1 (by decide) rfl
    rw [h]
    decide

/-- The Python slice `word[-3:]` of a 32-bit word, as its three top bits. -/
theorem drop29_eq (w : List Nat) (hw : w.length = 32) :
    w.drop 29 = [w.getD 29 0, w.getD 30 0, w.getD 31 0] := by
  have h3 : (w.drop 29).length = 3 := by rw [List.length_drop, hw]
  obtain ⟨a, b, c, habc⟩ := List.length_eq_three.mp h3
  have e0 : w.getD 29 0 = a := by
    rw [List.getD_eq_getElem?_getD, show (29 : Nat) = 29 + 0 from rfl,
      ← List.getElem?_drop, habc]
    rfl
  have e1 : w.getD 30 0 = b := by
    rw [List.getD_eq_getElem?_getD, show (30 : Nat) = 29 + 1 from rfl,
      ← List.getElem?_drop, habc]
    rfl
  have e2 : w.getD 31 0 = c := by
    rw [List.getD_eq_getElem?_getD, show (31 : Nat) = 29 + 2 from rfl,
      ← List.getElem?_drop, habc]
    rfl
  rw [habc, e0, e1, e2]

/-- C5 (amended): a 32-bit word is treated as a Type-1 packet header exactly
when its three most significant bits, read from bit 31 down to bit 29, are
0,0,1 (tag `001`, not `100` as claimed), and as a Type-2 packet header exactly
when those bits, read from bit 31 down to bit 29, are 0,1,0. -/
theorem packet_tag_tests (w : List Nat) (hw : w.length = 32) :
    (isType1Hdr w = true ↔
      w.getD 31 0 = 0 ∧ w.getD 30 0 = 0 ∧ w.getD 29 0 = 1) ∧
    (isType2Hdr w = true ↔
      w.getD 31 0 = 0 ∧ w.getD 30 0 = 1 ∧ w.getD 29 0 = 0) := by
  rw [isType1Hdr, isType2Hdr, drop29_eq w hw, beq_iff_eq, beq_iff_eq]
  simp only [List.cons.injEq, eq_self_iff_true, and_true]
  tauto

/-- C5 counterexample: the word parsed from bytes `80 00 00 00` has bits 31,
30, 29 equal to 1, 0, 0 — the tag the claim designates as Type 1 — yet the
scanner does not treat it as a Type-1 header (and the word parsed from bytes
`20 00 00 00`, with bits 31, 30, 29 equal to 0, 0, 1, is treated as one). -/
theorem packet_tag_counterexample :
    parse_word [128, 0, 0, 0] =
      some (byteBits 0 ++ byteBits 0 ++ byteBits 0 ++ byteBits 128, []) ∧
    (byteBits 0 ++ byteBits 0 ++ byteBits 0 ++ byteBits 128).getD 31 0 = 1 ∧
    (byteBits 0 ++ byteBits 0 ++ byteBits 0 ++ byteBits 128).getD 30 0 = 0 ∧
    (byteBits 0 ++ byteBits 0 ++ byteBits 0 ++ byteBits 128).getD 29 0 = 0 ∧
    isType1Hdr (byteBits 0 ++ byteBits 0 ++ byteBits 0 ++ byteBits 128) = false ∧
    isType1Hdr (byteBits 0 ++ byteBits 0 ++ byteBits 0 ++ byteBits 32) = true := by
  exact ⟨rfl, by decide, by decide, by decide, by decide, by decide⟩

theorem packet_tag_tests_witness :
    isType2Hdr (byteBits 0 ++ byteBits 0 ++ byteBits 0 ++ byteBits 64) = true := by
  have h := (packet_tag_tests
    (byteBits 0 ++ byteBits 0 ++ byteBits 0 ++ byteBits 64) (by decide)).2
  exact h.mpr ⟨by decide, by decide, by decide⟩

theorem skipWords_eq :
    ∀ n s s', skipWords n s = .ok s' → s' = s.drop n ∧ n ≤ s.length := by
  intro n
  induction n with
  | zero =>
    intro s s' h
    simp only [skipWords, Except.ok.injEq] at h
    simp [h.symm]
  | succ n ih =>
    intro s s' h
    match s with
    | [] => exact absurd h (by simp [skipWords])
    | w :: t =>
      obtain ⟨hd, hl⟩ := ih t s' h
      refine ⟨by simpa using hd, by simpa using Nat.succ_le_succ hl⟩

theorem rowSkip_ok {p q : List Nat} {s : List (List Nat)} {rem : Int}
    {s1 : List (List Nat)} {rem1 : Int}
    (h : rowSkip p q s rem = .ok (s1, rem1)) :
    (rowHalfBits p ≠ rowHalfBits q ∧ s1 = s.drop (FRAME_LENGTH * 2) ∧
      rem1 = rem - (FRAME_LENGTH * 2 : Int) ∧ FRAME_LENGTH * 2 ≤ s.length) ∨
    (rowHalfBits p = rowHalfBits q ∧ s1 = s ∧ rem1 = rem) := by
  rw [rowSkip] at h
  by_cases hne : rowHalfBits p ≠ rowHalfBits q
  · left
    rw [if_pos hne] at h
    cases hsk : skipWords (FRAME_LENGTH * 2) s with
    | error e => rw [hsk] at h; exact absurd h (by simp)
    | ok s2 =>
      rw [hsk] at h
      simp only [Except.ok.injEq, Prod.mk.injEq] at h
      obtain ⟨hs, hr⟩ := h
      obtain ⟨hd, hl⟩ := skipWords_eq _ _ _ hsk
      exact ⟨hne, by rw [← hs, hd], hr.symm, hl⟩
  · right
    rw [if_neg hne] at h
    simp only [Except.ok.injEq, Prod.mk.injEq] at h
    exact ⟨not_not.mp hne, h.1.symm, h.2.symm⟩

theorem frameLoop_ok (fhex : String) :
    ∀ k wo s rem bs s' rem',
      frameLoop fhex wo k s rem = .ok (bs, s', rem') →
      s' = s.drop k ∧ rem' = rem - (k : Int) ∧ k ≤ s.length := by
  intro k
  induction k with
  | zero =>
    intro wo s rem bs s' rem' h
    simp only [frameLoop, Except.ok.injEq, Prod.mk.injEq] at h
    refine ⟨h.2.1.symm, by rw [← h.2.2]; simp, by simp⟩
  | succ k ih =>
    intro wo s rem bs s' rem' h
    match s with
    | [] => exact absurd h (by simp [frameLoop])
    | w :: t =>
      simp only [frameLoop] at h
      cases hrec : frameLoop fhex (wo + 1) k t (rem - 1) with
      | error e => rw [hrec] at h; exact absurd h (by simp)
      | ok p =>
        rw [hrec] at h
        obtain ⟨bs0, s'', rem''⟩ := p
        simp only [Except.ok.injEq, Prod.mk.injEq] at h
        obtain ⟨-, hs, hrem⟩ := h
        obtain ⟨hd, hr, hl⟩ := ih (wo + 1) t (rem - 1) bs0 s'' rem'' hrec
        refine ⟨?_, ?_, ?_⟩
      
      
        · rw [← hs, hd, List.drop_succ_cons]
        · rw [← hrem, hr]
          push_cast
          ring
        · simpa using Nat.succ_le_succ hl

theorem enum_eq_map_getD (w : List Nat) (n : Nat) (h : w.length = n) :
    w.enum = (List.range n).map fun i => (i, w.getD i 0) := by
  apply List.ext_getElem?
  intro i
  by_cases hi : i < n
  · rw [List.enum, List.getElem?_enumFrom, List.getElem?_map,
      List.getElem?_range hi, List.getElem?_eq_getElem (by omega : i < w.length)]
    simp [List.getD_eq_getElem?_getD, List.getElem?_eq_getElem (by omega : i < w.length)]
  · rw [List.enum, List.getElem?_enumFrom, List.getElem?_map,
      List.getElem?_eq_none (show w.length ≤ i by omega),
      List.getElem?_eq_none (show (List.range n).length ≤ i by
        rw [List.length_range]; omega)]
    rfl

theorem emitWord_eq_ref (fhex : String) (wo : Nat) (w : List Nat)
    (h : w.length = 32) : emitWord fhex wo w = refWordBits fhex wo w := by
  rw [emitWord, refWordBits, enum_eq_map_getD w 32 h, List.filterMap_map]
  rfl

theorem frameLoop_bits (fhex : String) :
    ∀ k wo s rem bs s' rem',
      (∀ w ∈ s, w.length = 32) →
      frameLoop fhex wo k s rem = .ok (bs, s', rem') →
      bs = (List.range k).flatMap fun j => refWordBits fhex (wo + j) (s.getD j []) := by
  intro k
  induction k with
  | zero =>
    intro wo s rem bs s' rem' _ h
    simp only [frameLoop, Except.ok.injEq, Prod.mk.injEq] at h
    simp [← h.1]
  | succ k ih =>
    intro wo s rem bs s' rem' hws h
    match s with
    | [] => exact absurd h (by simp [frameLoop])
    | w :: t =>
      simp only [frameLoop] at h
      cases hrec : frameLoop fhex (wo + 1) k t (rem - 1) with
      | error e => rw [hrec] at h; exact absurd h (by simp)
      | ok p =>
        rw [hrec] at h
        obtain ⟨bs0, s'', rem''⟩ := p
        simp only [Except.ok.injEq, Prod.mk.injEq] at h
        obtain ⟨hbs, -, -⟩ := h
        have hw32 : w.length = 32 := hws w (by simp)
        have ht : ∀ u ∈ t, u.length = 32 := fun u hu => hws u (by simp [hu])
        have hbs0 := ih (wo + 1) t (rem - 1) bs0 s'' rem'' ht hrec
        rw [← hbs, hbs0, List.range_succ_eq_map, List.flatMap_cons,
          List.flatMap_map]
        simp only [Nat.add_zero, List.getD_cons_zero]
        rw [emitWord_eq_ref fhex wo w hw32]
        congr 1
        congr 1
        funext j
        simp only [Function.comp_apply, List.getD_cons_succ]
        have harith : wo + Nat.succ j = wo + 1 + j := by omega
        rw [harith]

theorem goFrames_consume :
    ∀ frames prev s rem bs s' rem',
      goFrames frames prev s rem = .ok (bs, s', rem') →
      s'.length ≤ s.length ∧ rem' = rem - ((s.length : Int) - s'.length) := by
  intro frames
  induction frames with
  | nil =>
    intro prev s rem bs s' rem' h
    simp only [goFrames, Except.ok.injEq, Prod.mk.injEq] at h
    obtain ⟨-, hs, hrem⟩ := h
    subst hs
    subst hrem
    simp
  | cons f fs ih =>
    intro prev s rem bs s' rem' h
    simp only [goFrames] at h
    split at h
    · exact absurd h (by simp)
    · rename_i s1 rem1 hsk
      split at h
      · exact absurd h (by simp)
      · rename_i bs1 s2 rem2 hfl
        split at h
        · exact absurd h (by simp)
        · rename_i bs2 s3 rem3 hgo
          simp only [Except.ok.injEq, Prod.mk.injEq] at h
          obtain ⟨-, hs3, hrem3⟩ := h
          subst hs3
          subst hrem3
          obtain ⟨hd2, hr2, hl2⟩ :=
            frameLoop_ok f.1 FRAME_LENGTH 0 s1 rem1 bs1 s2 rem2 hfl
          obtain ⟨hl3, hr3⟩ := ih f s2 rem2 bs2 _ _ hgo
          have hlen2 : s2.length = s1.length - FRAME_LENGTH := by
            rw [hd2, List.length_drop]
          rcases rowSkip_ok hsk with ⟨-, hs1, hr1, hl1⟩ | ⟨-, hs1, hr1⟩
          · have hlen1 : s1.length = s.length - FRAME_LENGTH * 2 := by
              rw [hs1, List.length_drop]
            subst hr1
            constructor
            · omega
            · rw [hr3, hr2]
              omega
          · subst hs1
            subst hr1
            constructor
            · omega
            · rw [hr3, hr2]
              omega

/-- C7: in the frame walk, when the first remaining frame's address bits
17..22 (row field plus half bit, the slice `frame[1][17:23]`) differ from the
previous frame's, exactly 2×FRAME_LENGTH = 202 words are read and discarded
from the stream and the remaining-word counter drops by 202, before the
frame's own FRAME_LENGTH words are read; when those bits are equal no extra
words are consumed. -/
theorem goFrames_row_skip (f : String × List Nat) (fs : List (String × List Nat))
    (prev : String × List Nat) (s : List (List Nat)) (rem : Int)
    (bs : List String) (s' : List (List Nat)) (rem' : Int)
    (h : goFrames (f :: fs) prev s rem = .ok (bs, s', rem')) :
    ∃ skipN bs1 bs2,
      skipN = (if rowHalfBits prev.2 ≠ rowHalfBits f.2 then FRAME_LENGTH * 2 else 0) ∧
      skipN + FRAME_LENGTH ≤ s.length ∧
      goFrames fs f (s.drop (skipN + FRAME_LENGTH))
        (rem - (skipN : Int) - (FRAME_LENGTH : Int)) = .ok (bs2, s', rem') ∧
      bs = bs1 ++ bs2 := by
  simp only [goFrames] at h
  split at h
  · exact absurd h (by simp)
  · rename_i s1 rem1 hsk
    split at h
    · exact absurd h (by simp)
    · rename_i bs1 s2 rem2 hfl
      split at h
      · exact absurd h (by simp)
      · rename_i bs2 s3 rem3 hgo
        simp only [Except.ok.injEq, Prod.mk.injEq] at h
        obtain ⟨hbs, hs3, hrem3⟩ := h
        obtain ⟨hd2, hr2, hl2⟩ :=
          frameLoop_ok f.1 FRAME_LENGTH 0 s1 rem1 bs1 s2 rem2 hfl
        rcases rowSkip_ok hsk with ⟨hne, hs1, hr1, hl1⟩ | ⟨heq, hs1, hr1⟩
        · refine ⟨FRAME_LENGTH * 2, bs1, bs2, ?_, ?_, ?_, ?_⟩
          · rw [if_pos hne]
          · rw [hs1] at hd2
            have : s1.length = s.length - FRAME_LENGTH * 2 := by
              rw [hs1, List.length_drop]
            omega
          · have hdrop : s.drop (FRAME_LENGTH * 2 + FRAME_LENGTH) = s2 := by
              rw [hd2, hs1, List.drop_drop]
            rw [hdrop]
            have hrem2 : rem - ((FRAME_LENGTH * 2 : Nat) : Int) - (FRAME_LENGTH : Int) = rem2 := by
              rw [hr2, hr1]
              push_cast
              ring
            rw [hrem2, hgo, hs3, hrem3]
          · rw [← hbs]
        · refine ⟨0, bs1, bs2, ?_, ?_, ?_, ?_⟩
          · rw [if_neg (by simp [heq])]
          · rw [hs1] at hl2
            omega
          · have hdrop : s.drop (0 + FRAME_LENGTH) = s2 := by
              rw [hd2, hs1, Nat.zero_add]
            rw [hdrop]
            have hrem2 : rem - (0 : Nat) - (FRAME_LENGTH : Int) = rem2 := by
              rw [hr2, hr1]
              push_cast
              ring
            rw [hrem2, hgo, hs3, hrem3]
          · rw [← hbs]

set_option maxRecDepth 4000 in
theorem goFrames_row_skip_witness :
    ∃ skipN bs1 bs2,
      skipN = (if rowHalfBits (List.replicate 32 0) ≠
          rowHalfBits ((List.replicate 32 0).set 22 1) then FRAME_LENGTH * 2 else 0) ∧
      skipN + FRAME_LENGTH ≤ (List.replicate 303 (List.replicate 32 0)).length ∧
      goFrames [] ("00400000", (List.replicate 32 0).set 22 1)
        ((List.replicate 303 (List.replicate 32 0)).drop (skipN + FRAME_LENGTH))
        (505 - (skipN : Int) - (FRAME_LENGTH : Int)) = .ok (bs2, ([] : List (List Nat)), 202) ∧
      ([] : List String) = bs1 ++ bs2 := by
  exact goFrames_row_skip ("00400000", (List.replicate 32 0).set 22 1) []
    ("00000000", List.replicate 32 0) (List.replicate 303 (List.replicate 32 0))
    505 [] [] 202 (by rfl)

theorem parse_config_packet_cons (stream : List (List Nat)) (len : Nat)
    (f0 : String × List Nat) (fs : List (String × List Nat))
    (hmod : len % FRAME_LENGTH = 0) :
    parse_config_packet stream len (f0 :: fs) =
      match goFrames (f0 :: fs) f0 stream (len : Int) with
      | .error e => .error e
      | .ok (bits, s', rem) =>
        if rem ≠ 2 * (FRAME_LENGTH : Int) then .error .incompletePacket
        else .ok (bits, s') := by
  simp only [parse_config_packet]
  rw [if_neg (by omega)]

/-- C10: throughout the decode walk the counter `frames_remaining` equals its
starting value minus the number of words taken from the stream; consequently
a successful `parse_config_packet` call consumes exactly
`config_packet_length - 2*FRAME_LENGTH` words, leaving the two dummy frames
unread at the stream cursor. -/
theorem parse_config_packet_word_accounting :
    (∀ frames prev s rem bs s' rem',
      goFrames frames prev s rem = .ok (bs, s', rem') →
      s'.length ≤ s.length ∧
      rem' = rem - ((s.length : Int) - (s'.length : Int))) ∧
    (∀ stream len frames bits s',
      parse_config_packet stream len frames = .ok (bits, s') →
      (stream.length : Int) - (s'.length : Int)
        = (len : Int) - 2 * (FRAME_LENGTH : Int)) := by
  refine ⟨goFrames_consume, ?_⟩
  intro stream len frames bits s' h
  simp only [parse_config_packet] at h
  split at h
  · exact absurd h (by simp)
  · rename_i hmod
    split at h
    · exact absurd h (by simp)
    · rename_i f0 fs
      split at h
      · exact absurd h (by simp)
      · rename_i bits0 s0 rem0 hgo
        split at h
        · exact absurd h (by simp)
        · rename_i hrem
          simp only [Except.ok.injEq, Prod.mk.injEq] at h
          obtain ⟨-, hs0⟩ := h
          subst hs0
          obtain ⟨hle, hr⟩ := goFrames_consume _ _ _ _ _ _ _ hgo
          have : rem0 = 2 * (FRAME_LENGTH : Int) := by
            by_contra hc
            exact hrem hc
          omega

set_option maxRecDepth 4000 in
theorem parse_config_packet_word_accounting_witness :
    ((List.replicate 101 (List.replicate 32 0)).length : Int)
        - (([] : List (List Nat)).length : Int)
      = ((303 : Nat) : Int) - 2 * (FRAME_LENGTH : Int) := by
  exact parse_config_packet_word_accounting.2
    (List.replicate 101 (List.replicate 32 0)) 303
    [("00000000", List.replicate 32 0)] [] [] (by rfl)

/-- C8: if the walk over every frame in the frame list succeeds but leaves
the remaining word count different from 2×FRAME_LENGTH, `parse_config_packet`
fails with the incomplete-packet error and returns no bit list; and whenever
it does return a bit list, exactly 2×FRAME_LENGTH words of the declared
payload were left unread (the two trailing dummy frames). -/
theorem parse_config_packet_dummy_frames :
    (∀ stream len f0 fs bits s' rem',
      len % FRAME_LENGTH = 0 →
      goFrames (f0 :: fs) f0 stream (len : Int) = .ok (bits, s', rem') →
      rem' ≠ 2 * (FRAME_LENGTH : Int) →
      parse_config_packet stream len (f0 :: fs) = .error .incompletePacket) ∧
    (∀ stream len frames bits s',
      parse_config_packet stream len frames = .ok (bits, s') →
      (len : Int) - ((stream.length : Int) - (s'.length : Int))
        = 2 * (FRAME_LENGTH : Int)) := by
  constructor
  · intro stream len f0 fs bits s' rem' hmod hgo hne
    rw [parse_config_packet_cons stream len f0 fs hmod, hgo]
    exact if_pos hne
  · intro stream len frames bits s' h
    simp only [parse_config_packet] at h
    split at h
    · exact absurd h (by simp)
    · rename_i hmod
      split at h
      · exact absurd h (by simp)
      · rename_i f0 fs
        split at h
        · exact absurd h (by simp)
        · rename_i bits0 s0 rem0 hgo
          split at h
          · exact absurd h (by simp)
          · rename_i hrem
            simp only [Except.ok.injEq, Prod.mk.injEq] at h
            obtain ⟨-, hs0⟩ := h
            subst hs0
            obtain ⟨hle, hr⟩ := goFrames_consume _ _ _ _ _ _ _ hgo
            have : rem0 = 2 * (FRAME_LENGTH : Int) := by
              by_contra hc
              exact hrem hc
            omega

set_option maxRecDepth 4000 in
theorem parse_config_packet_dummy_frames_witness :
    parse_config_packet (List.replicate 101 (List.replicate 32 0)) 404
        [("00000000", List.replicate 32 0)] = .error .incompletePacket ∧
    ((404 : Nat) : Int)
        - (((List.replicate 202 (List.replicate 32 0)).length : Int)
          - (([] : List (List Nat)).length : Int))
      = 2 * (FRAME_LENGTH : Int) := by
  constructor
  · exact parse_config_packet_dummy_frames.1
      (List.replicate 101 (List.replicate 32 0)) 404
      ("00000000", List.replicate 32 0) [] [] [] 303 (by norm_num [FRAME_LENGTH])
      (by rfl) (by norm_num [FRAME_LENGTH])
  · exact parse_config_packet_dummy_frames.2
      (List.replicate 202 (List.replicate 32 0)) 404
      [("00000000", List.replicate 32 0), ("00000000", List.replicate 32 0)]
      [] [] (by rfl)

theorem flatMap_congr_mem {α β : Type} {l : List α} {f g : α → List β}
    (h : ∀ a ∈ l, f a = g a) : l.flatMap f = l.flatMap g := by
  induction l with
  | nil => rfl
  | cons a t ih =>
    simp only [List.flatMap_cons, h a (by simp)]
    rw [ih fun x hx => h x (by simp [hx])]

theorem goFrames_bits :
    ∀ frames prev s rem bs s' rem',
      (∀ w ∈ s, w.length = 32) →
      goFrames frames prev s rem = .ok (bs, s', rem') →
      bs = (refSlices frames prev s).flatMap
        (fun sl => refFrameBits sl.1 sl.2) ∧
      (refSlices frames prev s).map Prod.fst = frames.map Prod.fst ∧
      ∀ sl ∈ refSlices frames prev s, sl.2.length = FRAME_LENGTH := by
  intro frames
  induction frames with
  | nil =>
    intro prev s rem bs s' rem' _ h
    simp only [goFrames, Except.ok.injEq, Prod.mk.injEq] at h
    exact ⟨by simp [refSlices, ← h.1], by simp [refSlices], by simp [refSlices]⟩
  | cons f fs ih =>
    intro prev s rem bs s' rem' hws h
    simp only [goFrames] at h
    split at h
    · exact absurd h (by simp)
    · rename_i s1 rem1 hsk
      split at h
      · exact absurd h (by simp)
      · rename_i bs1 s2 rem2 hfl
        split at h
        · exact absurd h (by simp)
        · rename_i bs2 s3 rem3 hgo
          simp only [Except.ok.injEq, Prod.mk.injEq] at h
          obtain ⟨hbs, -, -⟩ := h
          rcases rowSkip_ok hsk with ⟨hne, hs1, -, -⟩ | ⟨heq, hs1, -⟩
          · subst hs1
            have hws1 : ∀ w ∈ s.drop (FRAME_LENGTH * 2), w.length = 32 :=
              fun w hw => hws w (List.drop_subset _ _ hw)
            obtain ⟨hd2, hr2, hl2⟩ :=
              frameLoop_ok f.1 FRAME_LENGTH 0 _ rem1 bs1 s2 rem2 hfl
            subst hd2
            have hws2 : ∀ w ∈ (s.drop (FRAME_LENGTH * 2)).drop FRAME_LENGTH,
                w.length = 32 :=
              fun w hw => hws1 w (List.drop_subset _ _ hw)
            obtain ⟨hbs2, hmap, hlen⟩ := ih f _ rem2 bs2 _ _ hws2 hgo
            have hbs1 : bs1 = refFrameBits f.1
                ((s.drop (FRAME_LENGTH * 2)).take FRAME_LENGTH) := by
              rw [frameLoop_bits f.1 FRAME_LENGTH 0 _ rem1 bs1 _ rem2 hws1 hfl,
                refFrameBits]
              apply flatMap_congr_mem
              intro j hj
              have hjlt : j < FRAME_LENGTH := List.mem_range.mp hj
              have hgd : ((s.drop (FRAME_LENGTH * 2)).take FRAME_LENGTH).getD j []
                  = (s.drop (FRAME_LENGTH * 2)).getD j [] := by
                rw [List.getD_eq_getElem?_getD, List.getD_eq_getElem?_getD,
                  List.getElem?_take_of_lt hjlt]
              rw [hgd, Nat.zero_add]
            refine ⟨?_, ?_, ?_⟩
            · rw [← hbs, hbs1, hbs2]
              simp only [refSlices, if_pos hne, List.flatMap_cons]
            · simp only [refSlices, if_pos hne, List.map_cons, hmap]
            · intro sl hsl
              simp only [refSlices, if_pos hne] at hsl
              rcases List.mem_cons.mp hsl with hsl | hsl
              · rw [hsl, List.length_take]
                simp only [List.length_drop] at hl2 ⊢
                omega
              · exact hlen sl hsl
          · rw [hs1] at hfl
            have hcond : ¬ rowHalfBits prev.2 ≠ rowHalfBits f.2 :=
              not_not_intro heq
            obtain ⟨hd2, hr2, hl2⟩ :=
              frameLoop_ok f.1 FRAME_LENGTH 0 s rem1 bs1 s2 rem2 hfl
            subst hd2
            have hws2 : ∀ w ∈ s.drop FRAME_LENGTH, w.length = 32 :=
              fun w hw => hws w (List.drop_subset _ _ hw)
            obtain ⟨hbs2, hmap, hlen⟩ := ih f _ rem2 bs2 _ _ hws2 hgo
            have hbs1 : bs1 = refFrameBits f.1 (s.take FRAME_LENGTH) := by
              rw [frameLoop_bits f.1 FRAME_LENGTH 0 s rem1 bs1 _ rem2 hws hfl,
                refFrameBits]
              apply flatMap_congr_mem
              intro j hj
              have hjlt : j < FRAME_LENGTH := List.mem_range.mp hj
              have hgd : (s.take FRAME_LENGTH).getD j [] = s.getD j [] := by
                rw [List.getD_eq_getElem?_getD, List.getD_eq_getElem?_getD,
                  List.getElem?_take_of_lt hjlt]
              rw [hgd, Nat.zero_add]
            refine ⟨?_, ?_, ?_⟩
            · rw [← hbs, hbs1, hbs2]
              simp only [refSlices, if_neg hcond, List.flatMap_cons]
            · simp only [refSlices, if_neg hcond, List.map_cons, hmap]
            · intro sl hsl
              simp only [refSlices, if_neg hcond] at hsl
              rcases List.mem_cons.mp hsl with hsl | hsl
              · rw [hsl, List.length_take]
                omega
              · exact hlen sl hsl

/-- C2: whenever `parse_config_packet` returns a bit list, that list is the
concatenation, over the frames in frame-list order, of the in-order
enumeration (word offset ascending 0..100, then bit offset ascending 0..31)
of formatted entries for exactly the set bits of the `FRAME_LENGTH` stream
words assigned to that frame — the slices `refSlices` carves out of the
input stream itself, so the words discarded by the row-boundary skip
contribute nothing — except that bits of word offset 50 with bit offset ≤ 12
are never emitted while offsets 13..31 of word 50 are. -/
theorem parse_config_packet_bit_order :
    ∀ stream len frames bits s',
      (∀ w ∈ stream, w.length = 32) →
      parse_config_packet stream len frames = .ok (bits, s') →
      ∃ f0 fs, frames = f0 :: fs ∧
        bits = (refSlices frames f0 stream).flatMap
          (fun sl => refFrameBits sl.1 sl.2) ∧
        (refSlices frames f0 stream).map Prod.fst = frames.map Prod.fst ∧
        ∀ sl ∈ refSlices frames f0 stream, sl.2.length = FRAME_LENGTH := by
  intro stream len frames bits s' hws h
  simp only [parse_config_packet] at h
  split at h
  · exact absurd h (by simp)
  · split at h
    · exact absurd h (by simp)
    · rename_i f0 fs
      split at h
      · exact absurd h (by simp)
      · rename_i bits0 s0 rem0 hgo
        split at h
        · exact absurd h (by simp)
        · simp only [Except.ok.injEq, Prod.mk.injEq] at h
          obtain ⟨hb, -⟩ := h
          subst hb
          obtain ⟨h1, h2, h3⟩ := goFrames_bits _ _ _ _ _ _ _ hws hgo
          exact ⟨f0, fs, rfl, h1, h2, h3⟩

set_option maxRecDepth 4000 in
theorem parse_config_packet_bit_order_witness :
    ∃ f0 fs,
      [(("00000000" : String), List.replicate 32 0)] = f0 :: fs ∧
      ([] : List String)
          = (refSlices [("00000000", List.replicate 32 0)] f0
              (List.replicate 101 (List.replicate 32 0))).flatMap
            (fun sl => refFrameBits sl.1 sl.2) ∧
      (refSlices [("00000000", List.replicate 32 0)] f0
          (List.replicate 101 (List.replicate 32 0))).map Prod.fst
        = [(("00000000" : String), List.replicate 32 (0 : Nat))].map Prod.fst ∧
      ∀ sl ∈ refSlices [("00000000", List.replicate 32 0)] f0
          (List.replicate 101 (List.replicate 32 0)),
        sl.2.length = FRAME_LENGTH := by
  exact parse_config_packet_bit_order
    (List.replicate 101 (List.replicate 32 0)) 303
    [("00000000", List.replicate 32 0)] [] []
    (fun w hw => by rw [List.eq_of_mem_replicate hw]; rfl) (by rfl)

/-- C9 (amended): a part identifier that does not contain the substring
`"xc7"` makes the frame-list construction fail with the unsupported-device
error before any frame work begins (in particular `"xc6slx4"` fails this
way); but an identifier that contains `"xc7"` while containing none of the
four family substrings `xc7a`/`xc7k`/`xc7s`/`xc7z` instead fails inside
`get_frame_list` with the unbound-`family`-variable failure (a `NameError`),
not with the unsupported-device error. -/
theorem unsupported_part (part : String) (lines : List String) :
    (containsSeq "xc7".data part.data = false →
      frameListForPart part lines = .error .unsupportedDevice) ∧
    (containsSeq "xc7".data part.data = true →
      familyOf part = none →
      frameListForPart part lines = .error .nameError) := by
  constructor
  · intro h
    rw [frameListForPart, if_neg (by simp [h])]
  · intro h hfam
    rw [frameListForPart, if_pos (by simp [h]), get_frame_list, hfam]

/-- C9 counterexample: the part identifier `"xc7x99"` contains none of the
four family substrings, yet building its frame list does not produce the
unsupported-device error — it fails with the unbound-variable error
instead. -/
theorem unsupported_part_counterexample :
    containsSeq "xc7a".data "xc7x99".data = false ∧
    containsSeq "xc7k".data "xc7x99".data = false ∧
    containsSeq "xc7s".data "xc7x99".data = false ∧
    containsSeq "xc7z".data "xc7x99".data = false ∧
    frameListForPart "xc7x99" [] ≠ .error .unsupportedDevice ∧
    frameListForPart "xc7x99" [] = .error .nameError := by
  decide

theorem unsupported_part_witness :
    frameListForPart "xc6slx4" [] = .error .unsupportedDevice ∧
    frameListForPart "xc7x99" [] = .error .nameError := by
  exact ⟨(unsupported_part "xc6slx4" []).1 (by decide),
    (unsupported_part "xc7x99" []).2 (by decide) (by decide)⟩

theorem pyListLt_asymm :
    ∀ a b : List Nat, pyListLt a b = true → pyListLt b a = false := by
  intro a
  induction a with
  | nil =>
    intro b h
    cases b with
    | nil => simp [pyListLt] at h
    | cons y ys => simp [pyListLt]
  | cons x xs ih =>
    intro b h
    cases b with
    | nil => simp [pyListLt] at h
    | cons y ys =>
      simp only [pyListLt] at h ⊢
      rcases Nat.lt_trichotomy x y with hx | hx | hx
      · rw [if_neg (by omega), if_pos hx]
      · subst hx
        rw [if_neg (lt_irrefl x), if_neg (lt_irrefl x)] at h
        rw [if_neg (lt_irrefl x), if_neg (lt_irrefl x)]
        exact ih ys h
      · rw [if_neg (by omega), if_pos hx] at h
        exact absurd h (by simp)

theorem pyListLt_trans :
    ∀ a b c : List Nat, pyListLt a b = true → pyListLt b c = true →
      pyListLt a c = true := by
  intro a
  induction a with
  | nil =>
    intro b c h1 h2
    cases b with
    | nil => simp [pyListLt] at h1
    | cons y ys =>
      cases c with
      | nil => simp [pyListLt] at h2
      | cons z zs => simp [pyListLt]
  | cons x xs ih =>
    intro b c h1 h2
    cases b with
    | nil => simp [pyListLt] at h1
    | cons y ys =>
      cases c with
      | nil => simp [pyListLt] at h2
      | cons z zs =>
        simp only [pyListLt] at h1 h2 ⊢
        rcases Nat.lt_trichotomy x y with hxy | hxy | hxy
        · rcases Nat.lt_trichotomy y z with hyz | hyz | hyz
          · rw [if_pos (by omega)]
          · subst hyz
            rw [if_pos hxy]
          · rw [if_neg (by omega), if_pos hyz] at h2
            exact absurd h2 (by simp)
        · subst hxy
          rw [if_neg (lt_irrefl x), if_neg (lt_irrefl x)] at h1
          rcases Nat.lt_trichotomy x z with hxz | hxz | hxz
          · rw [if_pos hxz]
          · subst hxz
            rw [if_neg (lt_irrefl x), if_neg (lt_irrefl x)] at h2
            rw [if_neg (lt_irrefl x), if_neg (lt_irrefl x)]
            exact ih ys zs h1 h2
          · rw [if_neg (by omega), if_pos hxz] at h2
            exact absurd h2 (by simp)
        · rw [if_neg (by omega), if_pos hxy] at h1
          exact absurd h1 (by simp)

theorem pyListLt_connected :
    ∀ a b : List Nat, pyListLt a b = false → pyListLt b a = false → a = b := by
  intro a
  induction a with
  | nil =>
    intro b h1 _
    cases b with
    | nil => rfl
    | cons y ys => simp [pyListLt] at h1
  | cons x xs ih =>
    intro b h1 h2
    cases b with
    | nil => simp [pyListLt] at h2
    | cons y ys =>
      simp only [pyListLt] at h1 h2
      rcases Nat.lt_trichotomy x y with hx | hx | hx
      · rw [if_pos hx] at h1
        exact absurd h1 (by simp)
      · subst hx
        rw [if_neg (lt_irrefl x), if_neg (lt_irrefl x)] at h1
        rw [if_neg (lt_irrefl x), if_neg (lt_irrefl x)] at h2
        rw [ih ys h1 h2]
      · rw [if_pos hx] at h2
        exact absurd h2 (by simp)

theorem framePairLt_asymm {p q : String × List Nat}
    (h : framePairLt p q = true) : framePairLt q p = false := by
  rw [framePairLt] at h ⊢
  by_cases he : p.1 = q.1
  · rw [if_pos he] at h
    rw [if_pos he.symm]
    exact pyListLt_asymm _ _ h
  · rw [if_neg he] at h
    rw [if_neg (fun hc => he hc.symm)]
    simp only [decide_eq_true_eq] at h
    simp [not_lt.mpr (le_of_lt h)]

theorem framePairLt_trans {p q r : String × List Nat}
    (h1 : framePairLt p q = true) (h2 : framePairLt q r = true) :
    framePairLt p r = true := by
  rw [framePairLt] at h1 h2 ⊢
  by_cases he1 : p.1 = q.1
  · rw [if_pos he1] at h1
    by_cases he2 : q.1 = r.1
    · rw [if_pos he2] at h2
      rw [if_pos (he1.trans he2)]
      exact pyListLt_trans _ _ _ h1 h2
    · rw [if_neg he2] at h2
      simp only [decide_eq_true_eq] at h2
      have hlt : p.1 < r.1 := he1 ▸ h2
      rw [if_neg (by exact fun hc => absurd (hc ▸ hlt) (lt_irrefl _))]
      simp [hlt]
  · rw [if_neg he1] at h1
    simp only [decide_eq_true_eq] at h1
    by_cases he2 : q.1 = r.1
    · have hlt : p.1 < r.1 := he2 ▸ h1
      rw [if_neg (by exact fun hc => absurd (hc ▸ hlt) (lt_irrefl _))]
      simp [hlt]
    · rw [if_neg he2] at h2
      simp only [decide_eq_true_eq] at h2
      have hlt : p.1 < r.1 := lt_trans h1 h2
      rw [if_neg (by exact fun hc => absurd (hc ▸ hlt) (lt_irrefl _))]
      simp [hlt]

theorem framePairLt_connected {p q : String × List Nat}
    (h1 : framePairLt p q = false) (h2 : framePairLt q p = false) : p = q := by
  rw [framePairLt] at h1 h2
  by_cases he : p.1 = q.1
  · rw [if_pos he] at h1
    rw [if_pos he.symm] at h2
    exact Prod.ext he (pyListLt_connected _ _ h1 h2)
  · rw [if_neg he] at h1
    rw [if_neg (fun hc => he hc.symm)] at h2
    simp only [decide_eq_false_iff_not, not_lt] at h1 h2
    exact absurd (le_antisymm h2 h1) he

theorem frameLe_total (p q : String × List Nat) : frameLe p q ∨ frameLe q p := by
  by_cases h : framePairLt q p = true
  · exact Or.inr (framePairLt_asymm h)
  · exact Or.inl (show framePairLt q p = false by rwa [Bool.not_eq_true] at h)

theorem frameLe_trans {p q r : String × List Nat}
    (h1 : frameLe p q) (h2 : frameLe q r) : frameLe p r := by
  have h1' : framePairLt q p = false := h1
  have h2' : framePairLt r q = false := h2
  show framePairLt r p = false
  by_contra hc
  have hrp : framePairLt r p = true := by
    revert hc
    cases framePairLt r p <;> simp
  by_cases hqr : framePairLt q r = true
  · exact absurd (framePairLt_trans hqr hrp) (by simp [h1'])
  · have hqe : q = r := framePairLt_connected
      (show framePairLt q r = false by rwa [Bool.not_eq_true] at hqr) h2'
    rw [hqe] at h1'
    exact absurd hrp (by simp [h1'])

theorem frameLe_hex_le {p q : String × List Nat} (h : frameLe p q) :
    p.1 ≤ q.1 := by
  have h' : framePairLt q p = false := h
  rw [framePairLt] at h'
  by_cases he : q.1 = p.1
  · exact le_of_eq he.symm
  · rw [if_neg he] at h'
    simp only [decide_eq_false_iff_not, not_lt] at h'
    exact h'

theorem bitOfInt_le_one (v : Int) (i : Nat) : bitOfInt v i ≤ 1 := by
  rw [bitOfInt]
  have h1 : 0 ≤ (Int.fdiv v ((2 : Int) ^ i)).emod 2 :=
    Int.emod_nonneg _ (by norm_num)
  have h2 : (Int.fdiv v ((2 : Int) ^ i)).emod 2 < 2 :=
    Int.emod_lt_of_pos _ (by norm_num)
  omega

theorem wfAddr_set {a : List Nat} {i v : Nat} (ha : wfAddr a) (hv : v ≤ 1) :
    wfAddr (a.set i v) := by
  refine ⟨by rw [List.length_set]; exact ha.1, ?_⟩
  intro b hb
  rcases List.mem_or_eq_of_mem_set hb with hb | hb
  · exact ha.2 b hb
  · omega

theorem wfAddr_setBitsLE {a : List Nat} (ha : wfAddr a) (start width : Nat)
    (v : Int) : wfAddr (setBitsLE a start width v) := by
  rw [setBitsLE]
  generalize List.range width = l
  induction l generalizing a with
  | nil => exact ha
  | cons i t ih =>
    rw [List.foldl_cons]
    exact ih (wfAddr_set ha (bitOfInt_le_one v i))

theorem halfStep_wf {a : List Nat} (ha : wfAddr a) (scope : Int)
    (line : String) : wfAddr (halfStep scope line a) := by
  rw [halfStep]
  split
  · split <;> split <;>
      first
        | exact wfAddr_set (wfAddr_set ha (by omega)) (by omega)
        | exact wfAddr_set ha (by omega)
        | exact ha
  · exact ha

theorem busStep_wf {a : List Nat} (ha : wfAddr a) (scope : Int)
    (line : String) : wfAddr (busStep scope line a) := by
  rw [busStep]
  split
  · split <;> split <;> split <;>
      first
        | exact ha
        | exact wfAddr_set (wfAddr_set (wfAddr_set ha (by omega)) (by omega)) (by omega)
        | exact wfAddr_set (wfAddr_set (wfAddr_set (wfAddr_set (wfAddr_set
            (wfAddr_set ha (by omega)) (by omega)) (by omega)) (by omega)) (by omega)) (by omega)
        | exact wfAddr_set (wfAddr_set (wfAddr_set (wfAddr_set (wfAddr_set
            (wfAddr_set (wfAddr_set (wfAddr_set (wfAddr_set ha (by omega))
            (by omega)) (by omega)) (by omega)) (by omega)) (by omega))
            (by omega)) (by omega)) (by omega)
  · exact ha

theorem rowStep_wf {a a' : List Nat} (ha : wfAddr a) {scope : Int}
    {line : String} (h : rowStep scope line a = .ok a') : wfAddr a' := by
  rw [rowStep] at h
  split at h
  · split at h
    · simp only [Except.ok.injEq] at h
      exact h ▸ ha
    · split at h
      · exact absurd h (by simp)
      · simp only [Except.ok.injEq] at h
        exact h ▸ wfAddr_setBitsLE ha 17 5 _
  · simp only [Except.ok.injEq] at h
    exact h ▸ ha

theorem colStep_wf {a a' : List Nat} (ha : wfAddr a) {scope : Int}
    {line : String} (h : colStep scope line a = .ok a') : wfAddr a' := by
  rw [colStep] at h
  split at h
  · split at h
    · simp only [Except.ok.injEq] at h
      exact h ▸ ha
    · split at h
      · exact absurd h (by simp)
      · simp only [Except.ok.injEq] at h
        exact h ▸ wfAddr_setBitsLE ha 7 10 _
  · simp only [Except.ok.injEq] at h
    exact h ▸ ha

theorem emitFramesAux_wf :
    ∀ (l : List Nat) (acc : List (String × List Nat)) (cur : List Nat),
      (∀ f ∈ acc, wfFrame f) → wfAddr cur →
      (∀ f ∈ (l.foldl
          (fun (st : List (String × List Nat) × List Nat) (minor : Nat) =>
            let a' := setBitsLE st.2 0 7 (minor : Int)
            (st.1 ++ [(pyHexPad8 (bits_to_int a'), a')], a')) (acc, cur)).1,
        wfFrame f) ∧
      wfAddr ((l.foldl
          (fun (st : List (String × List Nat) × List Nat) (minor : Nat) =>
            let a' := setBitsLE st.2 0 7 (minor : Int)
            (st.1 ++ [(pyHexPad8 (bits_to_int a'), a')], a')) (acc, cur)).2) := by
  intro l
  induction l with
  | nil => intro acc cur hacc hcur; exact ⟨hacc, hcur⟩
  | cons m ms ih =>
    intro acc cur hacc hcur
    rw [List.foldl_cons]
    apply ih
    · intro f hf
      rcases List.mem_append.mp hf with hf | hf
      · exact hacc f hf
      · rw [List.mem_singleton.mp hf]
        exact ⟨rfl, wfAddr_setBitsLE hcur 0 7 _⟩
    · exact wfAddr_setBitsLE hcur 0 7 _

theorem emitFrames_wf {a : List Nat} (ha : wfAddr a) (n : Int) :
    (∀ f ∈ (emitFrames a n).1, wfFrame f) ∧ wfAddr (emitFrames a n).2 := by
  rw [emitFrames]
  exact emitFramesAux_wf (List.range n.toNat) [] a (by simp) ha

theorem fcStep_wf {a : List Nat} {fr : List (String × List Nat)}
    {a' : List Nat} (ha : wfAddr a) {scope : Int} {line : String}
    (h : fcStep scope line a = .ok (fr, a')) :
    wfAddr a' ∧ ∀ f ∈ fr, wfFrame f := by
  rw [fcStep] at h
  split at h
  · split at h
    · exact absurd h (by simp)
    · split at h
      · exact absurd h (by simp)
      · rename_i v hv
        simp only [Except.ok.injEq] at h
        obtain ⟨hwf, hcur⟩ := emitFrames_wf ha v
        rw [h] at hwf hcur
        exact ⟨hcur, hwf⟩
  · simp only [Except.ok.injEq, Prod.mk.injEq] at h
    obtain ⟨hfr, ha'⟩ := h
    exact ⟨ha' ▸ ha, by rw [← hfr]; intro f hf; simp at hf⟩

theorem gflLine_wf {st st' : GFLState} (hst : gflInv st)
    {line : String} (h : gflLine st line = .ok st') : gflInv st' := by
  simp only [gflLine] at h
  have h0 : wfAddr (halfStep st.scope line st.addr) :=
    halfStep_wf hst.1 st.scope line
  split at h
  · exact absurd h (by simp)
  · rename_i a1 hrow
    have h1 : wfAddr a1 := rowStep_wf h0 hrow
    have h2 : wfAddr (busStep st.scope line a1) := busStep_wf h1 st.scope line
    split at h
    · exact absurd h (by simp)
    · rename_i a3 hcol
      have h3 : wfAddr a3 := colStep_wf h2 hcol
      split at h
      · exact absurd h (by simp)
      · rename_i fr a4 hfc
        obtain ⟨h4, hfr⟩ := fcStep_wf h3 hfc
        simp only [Except.ok.injEq] at h
        rw [← h]
        refine ⟨h4, ?_⟩
        intro f hf
        rcases List.mem_append.mp hf with hf | hf
        · exact hst.2 f hf
        · exact hfr f hf

theorem gflLines_wf :
    ∀ (lines : List String) (st st' : GFLState), gflInv st →
      gflLines lines st = .ok st' → gflInv st' := by
  intro lines
  induction lines with
  | nil =>
    intro st st' hst h
    simp only [gflLines, Except.ok.injEq] at h
    exact h ▸ hst
  | cons line rest ih =>
    intro st st' hst h
    simp only [gflLines] at h
    split at h
    · exact absurd h (by simp)
    · rename_i st1 h1
      exact ih st1 st' (gflLine_wf hst h1) h

theorem length_hexBE : ∀ k n, (hexBE k n).length = k := by
  intro k
  induction k with
  | zero => intro n; rfl
  | succ k ih => intro n; simp [hexBE, ih]

theorem hexChar_zero : hexChar 0 = '0' := by decide

theorem hexChar_lt_hexChar :
    ∀ x, x < 16 → ∀ y, y < 16 → x < y → hexChar x < hexChar y := by decide

theorem hexChar_not_stripped :
    ∀ d, d < 16 → 1 ≤ d → ((hexChar d == '0' || hexChar d == 'x') = false) := by
  decide

theorem hexBE_snoc :
    ∀ k n, n < 16 ^ (k + 1) →
      hexBE (k + 1) n = hexBE k (n / 16) ++ [hexChar (n % 16)] := by
  intro k
  induction k with
  | zero =>
    intro n h
    have h16 : n < 16 := by simpa using h
    simp [hexBE, Nat.mod_eq_of_lt h16, Nat.div_one]
  | succ k ih =>
    intro n h
    show hexChar (n / 16 ^ (k + 1)) :: hexBE (k + 1) (n % 16 ^ (k + 1))
        = (hexChar (n / 16 / 16 ^ k) :: hexBE k (n / 16 % 16 ^ k)) ++ [hexChar (n % 16)]
    rw [List.cons_append]
    congr 1
    · rw [Nat.div_div_eq_div_mul]
      congr 2
      rw [pow_succ]
      ring
    · have hm : n % 16 ^ (k + 1) < 16 ^ (k + 1) := Nat.mod_lt _ (by positivity)
      rw [ih (n % 16 ^ (k + 1)) hm]
      have e1 : n % 16 ^ (k + 1) / 16 = n / 16 % 16 ^ k := by
        rw [show (16 : Nat) ^ (k + 1) = 16 * 16 ^ k from by rw [pow_succ]; ring]
        exact Nat.mod_mul_right_div_self n 16 (16 ^ k)
      have e2 : n % 16 ^ (k + 1) % 16 = n % 16 :=
        Nat.mod_mod_of_dvd n (dvd_pow_self 16 (Nat.succ_ne_zero k))
      rw [e1, e2]

theorem hexBE_pad :
    ∀ j k n, n < 16 ^ k →
      hexBE (j + k) n = List.replicate j '0' ++ hexBE k n := by
  intro j
  induction j with
  | zero => intro k n h; simp
  | succ j ih =>
    intro k n h
    have harr : j + 1 + k = (j + k) + 1 := by omega
    rw [harr]
    show hexChar (n / 16 ^ (j + k)) :: hexBE (j + k) (n % 16 ^ (j + k))
        = List.replicate (j + 1) '0' ++ hexBE k n
    have hlt : n < 16 ^ (j + k) :=
      lt_of_lt_of_le h (Nat.pow_le_pow_right (by norm_num) (by omega))
    rw [Nat.div_eq_of_lt hlt, Nat.mod_eq_of_lt hlt, hexChar_zero, ih k n h]
    rfl

theorem toHexAux_spec :
    ∀ fuel n acc, 0 < fuel → n < 16 ^ fuel →
      ∃ d, 0 < d ∧ n < 16 ^ d ∧
        toHexAux fuel n acc = hexBE d n ++ acc ∧
        (d = 1 ∨ 16 ^ (d - 1) ≤ n) := by
  intro fuel
  induction fuel with
  | zero => intro n acc h0 _; omega
  | succ fuel ih =>
    intro n acc _ h
    by_cases h16 : n < 16
    · refine ⟨1, by norm_num, by simpa using h16, ?_, Or.inl rfl⟩
      show toHexAux (fuel + 1) n acc = _
      rw [toHexAux, if_pos h16]
      simp [hexBE, Nat.div_one, Nat.mod_one]
    · have hdiv : n / 16 < 16 ^ fuel := by
        rw [Nat.div_lt_iff_lt_mul (by norm_num)]
        calc n < 16 ^ (fuel + 1) := h
          _ = 16 ^ fuel * 16 := by rw [pow_succ]
      have hfuel0 : 0 < fuel := by
        by_contra hc
        have hf : fuel = 0 := by omega
        rw [hf] at hdiv
        simp at hdiv
        omega
      obtain ⟨d, hd0, hdlt, heq, hlead⟩ :=
        ih (n / 16) (hexChar (n % 16) :: acc) hfuel0 hdiv
      have hnd : n < 16 ^ (d + 1) := by
        have := (Nat.div_lt_iff_lt_mul (by norm_num : (0 : Nat) < 16)).mp hdlt
        calc n < 16 ^ d * 16 := this
          _ = 16 ^ (d + 1) := (pow_succ 16 d).symm
      refine ⟨d + 1, by omega, hnd, ?_, Or.inr ?_⟩
      · show toHexAux (fuel + 1) n acc = _
        rw [toHexAux, if_neg h16, heq, hexBE_snoc d n hnd]
        simp [List.append_assoc]
      · have h16d : 16 ^ d ≤ n := by
          rcases hlead with h1 | h1
          · subst h1
            simpa using Nat.le_of_not_lt h16
          · have hmul : 16 * 16 ^ (d - 1) ≤ 16 * (n / 16) :=
              Nat.mul_le_mul_left 16 h1
            have hdn : 16 * (n / 16) ≤ n := by
              have := Nat.div_mul_le_self n 16
              omega
            have hpow : 16 * 16 ^ (d - 1) = 16 ^ d := by
              rw [← pow_succ']
              congr 1
              omega
            omega
        simpa using h16d

theorem pyHexDigits_spec (n : Nat) :
    ∃ d, 0 < d ∧ n < 16 ^ d ∧ pyHexDigits n = hexBE d n ∧
      (d = 1 ∨ 16 ^ (d - 1) ≤ n) := by
  have hlt : n < 16 ^ (n + 1) :=
    lt_of_lt_of_le (Nat.lt_pow_self (by norm_num) n)
      (Nat.pow_le_pow_right (by norm_num) (by omega))
  obtain ⟨d, hd0, hdlt, heq, hlead⟩ :=
    toHexAux_spec (n + 1) n [] (Nat.succ_pos n) hlt
  exact ⟨d, hd0, hdlt, by simpa using heq, hlead⟩

theorem pyHexPad8_data (n : Nat) (h : n < 16 ^ 8) :
    (pyHexPad8 n).data = hexBE 8 n := by
  obtain ⟨d, hd0, hdlt, heq, hlead⟩ := pyHexDigits_spec n
  have hd8 : d ≤ 8 := by
    rcases hlead with h1 | h1
    · omega
    · by_contra hc
      have hle : 16 ^ 8 ≤ 16 ^ (d - 1) :=
        Nat.pow_le_pow_right (by norm_num) (by omega)
      omega
  by_cases hn0 : n = 0
  · subst hn0
    decide
  · show pyRjust 8 '0' (pyLstrip0x ('0' :: 'x' :: pyHexDigits n)) = hexBE 8 n
    obtain ⟨e, rfl⟩ : ∃ e, d = e + 1 := ⟨d - 1, by omega⟩
    have hlead1 : 1 ≤ n / 16 ^ e := by
      rcases hlead with h1 | h1
      · have he : e = 0 := by omega
        subst he
        simpa [Nat.div_one] using Nat.one_le_iff_ne_zero.mpr hn0
      · have h16e : 16 ^ e ≤ n := by simpa using h1
        exact (Nat.one_le_div_iff (by positivity)).mpr h16e
    have hleadlt : n / 16 ^ e < 16 := by
      rw [Nat.div_lt_iff_lt_mul (by positivity)]
      calc n < 16 ^ (e + 1) := hdlt
        _ = 16 * 16 ^ e := by rw [pow_succ]; ring
    rw [heq]
    show pyRjust 8 '0' (pyLstrip0x
      ('0' :: 'x' :: (hexChar (n / 16 ^ e) :: hexBE e (n % 16 ^ e)))) = hexBE 8 n
    rw [pyLstrip0x, List.dropWhile_cons_of_pos (by decide),
      List.dropWhile_cons_of_pos (by decide),
      List.dropWhile_cons_of_neg (by
        rw [hexChar_not_stripped _ hleadlt hlead1]
        exact Bool.false_ne_true)]
    show pyRjust 8 '0' (hexBE (e + 1) n) = hexBE 8 n
    rw [pyRjust, length_hexBE]
    have hpad := hexBE_pad (8 - (e + 1)) (e + 1) n hdlt
    rw [← hpad, show 8 - (e + 1) + (e + 1) = 8 from by omega]

theorem hexBE_lt :
    ∀ k a b, a < 16 ^ k → b < 16 ^ k → a < b →
      List.Lex (· < ·) (hexBE k a) (hexBE k b) := by
  intro k
  induction k with
  | zero => intro a b ha hb hab; omega
  | succ k ih =>
    intro a b ha hb hab
    have hda : a / 16 ^ k < 16 := by
      rw [Nat.div_lt_iff_lt_mul (by positivity)]
      calc a < 16 ^ (k + 1) := ha
        _ = 16 * 16 ^ k := by rw [pow_succ]; ring
    have hdb : b / 16 ^ k < 16 := by
      rw [Nat.div_lt_iff_lt_mul (by positivity)]
      calc b < 16 ^ (k + 1) := hb
        _ = 16 * 16 ^ k := by rw [pow_succ]; ring
    have hle : a / 16 ^ k ≤ b / 16 ^ k := Nat.div_le_div_right (le_of_lt hab)
    rcases lt_or_eq_of_le hle with hlt | heq
    · exact List.Lex.rel (hexChar_lt_hexChar _ hda _ hdb hlt)
    · show List.Lex (· < ·)
        (hexChar (a / 16 ^ k) :: hexBE k (a % 16 ^ k))
        (hexChar (b / 16 ^ k) :: hexBE k (b % 16 ^ k))
      rw [heq]
      apply List.Lex.cons
      apply ih
      · exact Nat.mod_lt _ (by positivity)
      · exact Nat.mod_lt _ (by positivity)
      · have ea := Nat.div_add_mod a (16 ^ k)
        have eb := Nat.div_add_mod b (16 ^ k)
        rw [heq] at ea
        omega

theorem pyHexPad8_lt {a b : Nat} (ha : a < 16 ^ 8) (hb : b < 16 ^ 8)
    (h : a < b) : pyHexPad8 a < pyHexPad8 b := by
  rw [String.lt_iff_toList_lt]
  show (pyHexPad8 a).data < (pyHexPad8 b).data
  rw [pyHexPad8_data a ha, pyHexPad8_data b hb]
  exact hexBE_lt 8 a b ha hb h

theorem pyHexPad8_le_imp {a b : Nat} (ha : a < 16 ^ 8) (hb : b < 16 ^ 8)
    (h : pyHexPad8 a ≤ pyHexPad8 b) : a ≤ b := by
  by_contra hc
  push_neg at hc
  exact absurd h (not_le_of_lt (pyHexPad8_lt hb ha hc))

theorem bitsVal_lt (a : List Nat) (h : ∀ b ∈ a, b ≤ 1) :
    bitsVal a < 2 ^ a.length := by
  induction a with
  | nil => simp [bitsVal]
  | cons b bs ih =>
    have hb : b ≤ 1 := h b (by simp)
    have hbs := ih fun x hx => h x (by simp [hx])
    simp only [bitsVal, List.length_cons]
    have hp : 2 ^ (bs.length + 1) = 2 * 2 ^ bs.length := by
      rw [pow_succ]
      ring
    omega

theorem bits_to_int_lt_of_wf {a : List Nat} (ha : wfAddr a) :
    bits_to_int a < 16 ^ 8 := by
  rw [bits_to_int_eq_bitsVal]
  have h := bitsVal_lt a ha.2
  rw [ha.1] at h
  calc bitsVal a < 2 ^ 32 := h
    _ = 16 ^ 8 := by norm_num

/-- C6 (amended): every frame list returned by `get_frame_list` is sorted in
non-decreasing (not strictly increasing) order of the 8-hex-digit frame
address string, and that order coincides with non-decreasing numeric order of
the 32-bit frame address.  The sort need not be strict: a descriptor that
declares two frames at the same position yields duplicate addresses. -/
theorem frame_list_sorted (part : String) (lines : List String)
    (res : List (String × List Nat))
    (h : get_frame_list part lines = .ok res) :
    res.Pairwise fun p q => p.1 ≤ q.1 ∧ bits_to_int p.2 ≤ bits_to_int q.2 := by
  rw [get_frame_list] at h
  split at h
  · exact absurd h (by simp)
  · split at h
    · exact absurd h (by simp)
    · rename_i st hst
      simp only [Except.ok.injEq] at h
      have hinv0 : gflInv ⟨0, List.replicate 32 0, []⟩ := by
        refine ⟨⟨by simp, ?_⟩, by simp⟩
        intro b hb
        rw [List.eq_of_mem_replicate hb]
        omega
      have hwfst : gflInv st := gflLines_wf lines _ st hinv0 hst
      haveI : IsTotal (String × List Nat) frameLe := ⟨frameLe_total⟩
      haveI : IsTrans (String × List Nat) frameLe :=
        ⟨fun _ _ _ => frameLe_trans⟩
      have hsorted : List.Sorted frameLe (List.insertionSort frameLe st.frames) :=
        List.sorted_insertionSort frameLe st.frames
      have hwf : ∀ f ∈ List.insertionSort frameLe st.frames, wfFrame f := by
        intro f hf
        exact hwfst.2 f ((List.mem_insertionSort frameLe).mp hf)
      rw [← h]
      refine List.Pairwise.imp_of_mem ?_ hsorted
      intro p q hp hq hle
      have hple := frameLe_hex_le hle
      refine ⟨hple, ?_⟩
      have hwp := hwf p hp
      have hwq := hwf q hq
      rw [hwp.1, hwq.1] at hple
      exact pyHexPad8_le_imp (bits_to_int_lt_of_wf hwp.2)
        (bits_to_int_lt_of_wf hwq.2) hple

/-- C6 counterexample: a descriptor declaring the same position twice
(two frame-count lines in the same scope) makes `get_frame_list` return two
entries with the same address `00000000`, so the list is not strictly sorted
and two entries share an address. -/
theorem frame_list_sorted_counterexample :
    get_frame_list "xc7a100t"
        (List.replicate 9 "\x7b" ++ [" X 1", " X 1"])
      = .ok [("00000000", List.replicate 32 0),
             ("00000000", List.replicate 32 0)] ∧
    ¬ ([("00000000", List.replicate 32 0),
        ("00000000", List.replicate 32 0)].Pairwise
        fun p q : String × List Nat => p.1 ≠ q.1) := by
  constructor
  · decide
  · decide

theorem frame_list_sorted_witness :
    ∃ res, get_frame_list "xc7a"
        (List.replicate 9 "\x7b" ++ [" X 2"]) = .ok res ∧
      res.Pairwise fun p q => p.1 ≤ q.1 ∧ bits_to_int p.2 ≤ bits_to_int q.2 := by
  refine ⟨_, rfl, ?_⟩
  exact frame_list_sorted "xc7a" (List.replicate 9 "\x7b" ++ [" X 2"]) _ rfl
